import Mathlib

/-!
Verification development for the `pdfreader` repository (PDF invoice parser +
order/invoice reconciliation).  Python strings are modelled as `List Char`
(`PyStr`), Python `None`-able cell values as `Option PyStr`, and the stdlib
string/decimal operations used by the code are given explicit executable
models below.  Module `main.py` is embedded in namespace `Main`, module
`order_compare.py` in namespace `OrderCompare`.
-/

set_option autoImplicit false

namespace PdfReader

/-- Python strings, modelled as lists of unicode characters. -/
abbrev PyStr := List Char

/-- Convenience conversion from a Lean string literal to `PyStr`. -/
def lc (s : String) : PyStr := s.data

/-- Model of Python's whitespace predicate (`str.isspace`, and the character
class used by `str.strip()` / `str.split()`): ASCII whitespace, the
C0 separator block 0x1C-0x1F, NEL, NBSP and the Unicode space characters. -/
def pyIsSpace (c : Char) : Bool :=
  c == ' ' || c == '\t' || c == '\n' || c.val == 11 || c.val == 12 || c == '\r' ||
  (28 ≤ c.val && c.val ≤ 31) || c.val == 0x85 || c.val == 0xA0 || c.val == 0x1680 ||
  (0x2000 ≤ c.val && c.val ≤ 0x200A) || c.val == 0x2028 || c.val == 0x2029 ||
  c.val == 0x202F || c.val == 0x205F || c.val == 0x3000

/-- Model of Python `str.strip()` (no argument): remove leading and trailing
whitespace. -/
def pyStrip (s : PyStr) : PyStr :=
  ((s.dropWhile pyIsSpace).reverse.dropWhile pyIsSpace).reverse

/-- Fuelled worker for `replaceAll`; the fuel only serves to make the
recursion structural, `replaceAll` always supplies enough of it. -/
def replaceAllF (pat repl : PyStr) : Nat → PyStr → PyStr
  | _, [] => []
  | 0, s => s
  | fuel + 1, c :: s =>
    if pat ≠ [] ∧ pat.isPrefixOf (c :: s) then
      repl ++ replaceAllF pat repl fuel ((c :: s).drop pat.length)
    else
      c :: replaceAllF pat repl fuel s

/-- Model of Python `str.replace(pat, repl)`: replace every (left-to-right,
non-overlapping) occurrence of `pat` by `repl`. -/
def replaceAll (pat repl s : PyStr) : PyStr :=
  replaceAllF pat repl s.length s

/-- Search for character `c` in `s`, reporting the first index (the index is
accumulated in the second argument). -/
def findCharAux (c : Char) : PyStr → Nat → Option Nat
  | [], _ => none
  | d :: rest, i => if d = c then some i else findCharAux c rest (i + 1)

/-- Model of Python `str.find(c, start)` for a single-character needle:
first index `≥ start` holding `c`, `none` when absent (Python returns -1). -/
def pyFind (c : Char) (start : Nat) (s : PyStr) : Option Nat :=
  (findCharAux c (s.drop start) 0).map (· + start)

/-- Worker for `pySplit`; `acc` holds the (reversed) current token. -/
def splitAux : PyStr → PyStr → List PyStr
  | acc, [] => if acc = [] then [] else [acc.reverse]
  | acc, c :: rest =>
    if pyIsSpace c then
      if acc = [] then splitAux [] rest else acc.reverse :: splitAux [] rest
    else
      splitAux (c :: acc) rest

/-- Model of Python `str.split()` (no argument): split on runs of whitespace,
discarding empty tokens. -/
def pySplit (s : PyStr) : List PyStr := splitAux [] s

/-- Model of Python `" ".join(tokens)`. -/
def spaceJoin : List PyStr → PyStr
  | [] => []
  | [t] => t
  | t :: ts => t ++ ' ' :: spaceJoin ts

/-- Model of Python `sep.join(parts)` for a single-character separator. -/
def charJoin (sep : Char) : List PyStr → PyStr
  | [] => []
  | [t] => t
  | t :: ts => t ++ sep :: charJoin sep ts

/-- Model of Python `", ".join(parts)`. -/
def commaJoin : List PyStr → PyStr
  | [] => []
  | [t] => t
  | t :: ts => t ++ lc ", " ++ commaJoin ts

/-- Worker for `splitOnChar`. -/
def splitOnCharAux (sep : Char) : PyStr → PyStr → List PyStr
  | acc, [] => [acc.reverse]
  | acc, c :: rest =>
    if c = sep then acc.reverse :: splitOnCharAux sep [] rest
    else splitOnCharAux sep (c :: acc) rest

/-- Model of Python `str.split(sep)` for a one-character separator: keeps
empty pieces, `"".split(sep) == [""]`. -/
def splitOnChar (sep : Char) (s : PyStr) : List PyStr := splitOnCharAux sep [] s

/-- `true` when the string contains no two adjacent space characters. -/
def noDoubleSpace : PyStr → Bool
  | [] => true
  | [_] => true
  | a :: b :: rest => !(a == ' ' && b == ' ') && noDoubleSpace (b :: rest)

/-- Characters splitting lines for Python `str.splitlines()`. -/
def pyIsLineBreak (c : Char) : Bool :=
  c == '\n' || c == '\r' || c.val == 11 || c.val == 12 ||
  (28 ≤ c.val && c.val ≤ 30) || c.val == 0x85 || c.val == 0x2028 || c.val == 0x2029

/-- Worker for `pySplitlines`; treats `\r\n` as one break. -/
def splitlinesAux : PyStr → PyStr → List PyStr
  | acc, [] => if acc = [] then [] else [acc.reverse]
  | acc, '\r' :: '\n' :: rest => acc.reverse :: splitlinesAux [] rest
  | acc, c :: rest =>
    if pyIsLineBreak c then
      acc.reverse :: splitlinesAux [] rest
    else
      splitlinesAux (c :: acc) rest

/-- Model of Python `str.splitlines()`. -/
def pySplitlines (s : PyStr) : List PyStr := splitlinesAux [] s

/-- Model of Python `str.isdigit()` restricted to ASCII digits (the invoices
handled by the program contain only ASCII digits). -/
def pyIsDigitStr (s : PyStr) : Bool :=
  !s.isEmpty && s.all Char.isDigit

/-- Numeric value of a list of ASCII digits. -/
def digitsToNat (l : PyStr) : Nat :=
  l.foldl (fun n c => n * 10 + (c.toNat - 48)) 0

/-- Consume an optional leading sign; returns (`true` iff negative, rest). -/
def parseSign : PyStr → Bool × PyStr
  | '+' :: r => (false, r)
  | '-' :: r => (true, r)
  | s => (false, s)

/-! ### Model of `decimal.Decimal` -/

/-- Value of a Python `Decimal`: finite (sign, coefficient, exponent),
infinity, or (quiet/signaling) NaN.  NaN diagnostic payloads are irrelevant
to the equality test used by the program and are not recorded. -/
inductive PyDecimal where
  | finite (sign : Bool) (coeff : Nat) (exp : Int)
  | infinite (sign : Bool)
  | nan (signaling : Bool)
deriving DecidableEq, Repr

/-- Codepoint ranges of the Unicode decimal digits (category Nd, generated
from `unicodedata`): each run holds the digits 0-9 of one script, the digit
value being the offset from the run start. -/
def decimalDigitRanges : List (Nat × Nat) :=
  [(48, 57), (1632, 1641), (1776, 1785), (1984, 1993), (2406, 2415), (2534,
  2543), (2662, 2671), (2790, 2799), (2918, 2927), (3046, 3055), (3174,
  3183), (3302, 3311), (3430, 3439), (3558, 3567), (3664, 3673), (3792,
  3801), (3872, 3881), (4160, 4169), (4240, 4249), (6112, 6121), (6160,
  6169), (6470, 6479), (6608, 6617), (6784, 6793), (6800, 6809), (6992,
  7001), (7088, 7097), (7232, 7241), (7248, 7257), (42528, 42537), (43216,
  43225), (43264, 43273), (43472, 43481), (43504, 43513), (43600, 43609),
  (44016, 44025), (65296, 65305), (66720, 66729), (68912, 68921), (69734,
  69743), (69872, 69881), (69942, 69951), (70096, 70105), (70384, 70393),
  (70736, 70745), (70864, 70873), (71248, 71257), (71360, 71369), (71472,
  71481), (71904, 71913), (72016, 72025), (72784, 72793), (73040, 73049),
  (73120, 73129), (92768, 92777), (92864, 92873), (93008, 93017), (120782,
  120791), (120792, 120801), (120802, 120811), (120812, 120821), (120822,
  120831), (123200, 123209), (123632, 123641), (125264, 125273), (130032,
  130041)]

/-- A Unicode decimal digit — what the `Decimal` constructor accepts as a
digit (`\d` in the `_pydecimal` grammar, `Py_UNICODE_TODECIMAL` in the C
implementation). -/
def pyIsDecimalDigit (c : Char) : Bool :=
  decimalDigitRanges.any
    (fun pr => decide (pr.1 ≤ c.toNat) && decide (c.toNat ≤ pr.2))

/-- Digit value of a Unicode decimal digit (0 for non-digits). -/
def pyDecimalDigitVal (c : Char) : Nat :=
  match decimalDigitRanges.find?
      (fun pr => decide (pr.1 ≤ c.toNat) && decide (c.toNat ≤ pr.2)) with
  | some pr => c.toNat - pr.1
  | none => 0

/-- Numeric value of a list of Unicode decimal digits. -/
def decDigitsToNat (l : PyStr) : Nat :=
  l.foldl (fun n c => n * 10 + pyDecimalDigitVal c) 0

/-- Suffix handler for `decimalParse`: an optional exponent part after the
significand; rejects any trailing garbage. -/
def parseDecExp (sign : Bool) (coeff : Nat) (shift : Int) : PyStr → Option PyDecimal
  | [] => some (.finite sign coeff shift)
  | e :: r =>
    if e.toLower = 'e' then
      let sr := parseSign r
      let dr := sr.2.span pyIsDecimalDigit
      if dr.1.isEmpty || !dr.2.isEmpty then none
      else
        some (.finite sign coeff
          (shift + (if sr.1 then -(decDigitsToNat dr.1 : Int) else (decDigitsToNat dr.1 : Int))))
    else none

/-- Model of the numeric-string grammar accepted by the `Decimal`
constructor (CPython `_pydecimal` / libmpdec): surrounding whitespace is
stripped and every underscore is removed (PEP 515, `value.strip().replace("_", "")`),
then an optional sign followed by either `Inf`/`Infinity`, `NaN`/`sNaN`
with an optional digit payload (all case-insensitive), or a digit
significand with optional fraction and exponent; digits are the Unicode
decimal digits. -/
def decimalParse (s : PyStr) : Option PyDecimal :=
  let t := replaceAll ['_'] [] (pyStrip s)
  let sr := parseSign t
  let sign := sr.1
  let r := sr.2
  let low := r.map Char.toLower
  if low = lc "inf" || low = lc "infinity" then some (.infinite sign)
  else if (lc "nan").isPrefixOf low && (low.drop 3).all pyIsDecimalDigit then
    some (.nan false)
  else if (lc "snan").isPrefixOf low && (low.drop 4).all pyIsDecimalDigit then
    some (.nan true)
  else
    let ipr := r.span pyIsDecimalDigit
    match ipr.2 with
    | '.' :: r2 =>
      let fpr := r2.span pyIsDecimalDigit
      if ipr.1.isEmpty && fpr.1.isEmpty then none
      else parseDecExp sign (decDigitsToNat (ipr.1 ++ fpr.1)) (-(fpr.1.length : Int)) fpr.2
    | _ =>
      if ipr.1.isEmpty then none else parseDecExp sign (decDigitsToNat ipr.1) 0 ipr.2

/-- Signed integer value of a finite decimal's sign/coefficient pair. -/
def decSignedCoeff (sign : Bool) (coeff : Nat) : Int :=
  if sign then -(coeff : Int) else (coeff : Int)

/-- Model of `Decimal.__eq__`: numeric-value equality.  Two finite decimals
are compared exactly by aligning exponents over ℤ; infinities compare by
sign; any NaN compares unequal.  (The only divergence from CPython: an
equality comparison touching a signaling NaN raises `InvalidOperation`
there; here it yields `false`, and `numbers_equal_raises` below records
exactly when that raise would happen.) -/
def decimalEq : PyDecimal → PyDecimal → Bool
  | .finite s1 c1 e1, .finite s2 c2 e2 =>
    let m := min e1 e2
    decSignedCoeff s1 c1 * 10 ^ (e1 - m).toNat = decSignedCoeff s2 c2 * 10 ^ (e2 - m).toNat
  | .infinite s1, .infinite s2 => s1 = s2
  | _, _ => false

/-- Exact rational value of a finite decimal. -/
def decValue (sign : Bool) (coeff : Nat) (exp : Int) : ℚ :=
  (decSignedCoeff sign coeff : ℚ) * 10 ^ exp

end PdfReader

namespace PdfReader.OrderCompare

/-- A cell of an order spreadsheet/CSV row: `none` models Python `None`,
`some s` models any other cell object through its `str()` image (the only
way `order_compare.py` ever uses a cell). -/
abbrev Cell := Option PyStr

/-- An order row: an arbitrary-width list of cells (`list(row)`). -/
abbrev OrderRow := List Cell

/-- An invoice row as produced by `csv.DictReader`: a field-name/value
association list (Python dict with string keys). -/
abbrev InvoiceRow := List (PyStr × Cell)

/-- Python `dict.get(k)` on an invoice row: stored value if the key is
present (the stored value may itself be `None`), else `None`. -/
def dict_get (r : InvoiceRow) (k : PyStr) : Cell :=
  match r.find? (fun pr => pr.1 = k) with
  | some pr => pr.2
  | none => none

/-- Python `dict.get(k, "")` on an invoice row. -/
def dict_get_blank (r : InvoiceRow) (k : PyStr) : Cell :=
  match r.find? (fun pr => pr.1 = k) with
  | some pr => pr.2
  | none => some []

/-- `order_compare.normalize_text`: `""` for `None`, else `str(value).strip()`. -/
def normalize_text (value : Cell) : PyStr :=
  match value with
  | none => []
  | some s => pyStrip s

/-- `order_compare.normalize_numeric`: `None` for `None`; otherwise replace
NBSP by space, delete spaces, turn commas into dots, strip; empty text gives
`None`, else the `Decimal` parse (`None` on `InvalidOperation`). -/
def normalize_numeric (value : Cell) : Option PyDecimal :=
  match value with
  | none => none
  | some s =>
    let text := pyStrip (replaceAll [','] ['.'] (replaceAll [' '] [] (replaceAll ['\u00A0'] [' '] s)))
    if text = [] then none else decimalParse text

/-- `order_compare.left_until_underscore`: strip the value; if the result is
empty return `""`; otherwise truncate at the first `_` at index ≥ 15 (Python
`text.find("_", 15)`), returning the whole text when there is none. -/
def left_until_underscore (value : Cell) : PyStr :=
  let text := normalize_text value
  if text = [] then []
  else
    match pyFind '_' 15 text with
    | none => text
    | some idx => text.take idx

/-- `order_compare.numbers_equal` (total model; see `decimalEq`). -/
def numbers_equal (left right : Cell) : Bool :=
  match normalize_numeric left, normalize_numeric right with
  | none, none => true
  | none, some _ => false
  | some _, none => false
  | some a, some b => decimalEq a b

/-- `true` exactly when Python's `numbers_equal` would raise
`InvalidOperation`: both sides parse and at least one is a signaling NaN. -/
def numbers_equal_raises (left right : Cell) : Bool :=
  match normalize_numeric left, normalize_numeric right with
  | some a, some b => a = .nan true || b = .nan true
  | _, _ => false

/-- `order_compare.get_column`: 1-based positional access, `None` when out of
range. -/
def get_column (row : OrderRow) (index : Int) : Cell :=
  if index - 1 < 0 ∨ (row.length : Int) ≤ index - 1 then none
  else (row.get? (index - 1).toNat).getD none

/-- Matching key of an order row: column 4 truncated by
`left_until_underscore` (the expression in `compare_rows` /
`build_order_index`). -/
def order_key (row : OrderRow) : PyStr :=
  left_until_underscore (get_column row 4)

/-- Matching key of an invoice row: `normalize_text(row.get("kod"))`. -/
def invoice_key (r : InvoiceRow) : PyStr :=
  normalize_text (dict_get r (lc "kod"))

/-- Generic model of a `defaultdict(deque)` keyed index built by appending
each row to the bucket of its key, in input order.  The dict is modelled as
a total function from key to bucket (missing key = empty bucket, exactly how
the dict is subsequently read). -/
def buildIndex {α : Type} (key : α → PyStr) (rows : List α) : PyStr → List α :=
  rows.foldl (fun idx r => fun k => if k = key r then idx k ++ [r] else idx k)
    (fun _ => [])

/-- `order_compare.build_invoice_index`. -/
def build_invoice_index (rows : List InvoiceRow) : PyStr → List InvoiceRow :=
  buildIndex invoice_key rows

/-- `order_compare.build_order_index`: indexes the order rows after the
header row (`order_rows[1:]`). -/
def build_order_index (order_rows : List OrderRow) : PyStr → List OrderRow :=
  buildIndex order_key (order_rows.drop 1)

/-- Generic model of the pairing loop shared by both passes: for each driven
row pop the oldest entry of its key's queue (`popleft`), or pair with `none`
when the queue is missing/empty.  Returns the pairing trace in driving
order. -/
def runMatch {δ α : Type} (kd : δ → PyStr) :
    (PyStr → List α) → List δ → List (δ × Option α)
  | _, [] => []
  | idx, d :: ds =>
    match idx (kd d) with
    | [] => (d, none) :: runMatch kd idx ds
    | a :: rest =>
      (d, some a) :: runMatch kd (fun k2 => if k2 = kd d then rest else idx k2) ds

/-- Pairing trace of the order-driven pass of `compare_rows`: order rows
after the header, against the per-key invoice queues. -/
def order_trace (order_rows : List OrderRow) (invoice_rows : List InvoiceRow) :
    List (OrderRow × Option InvoiceRow) :=
  runMatch order_key (build_invoice_index invoice_rows) (order_rows.drop 1)

/-- Pairing trace of the invoice-driven pass of `compare_invoice_rows`. -/
def invoice_trace (order_rows : List OrderRow) (invoice_rows : List InvoiceRow) :
    List (InvoiceRow × Option OrderRow) :=
  runMatch invoice_key (build_order_index order_rows) invoice_rows

/-- Mismatch list computed by the loop body of `compare_rows` for one order
row and its (possibly absent) paired invoice row. -/
def row_mismatches (row : OrderRow) (invoice_row : Option InvoiceRow) : List PyStr :=
  match invoice_row with
  | none => [lc "missing_invoice_row"]
  | some inv =>
    (if normalize_text (some (order_key row)) ≠ normalize_text (dict_get inv (lc "kod"))
      then [lc "kod"] else []) ++
    (if numbers_equal (get_column row 6) (dict_get inv (lc "db"))
      then [] else [lc "db"]) ++
    (if numbers_equal (get_column row 9) (dict_get inv (lc "egyseg_ar"))
      then [] else [lc "egyseg_ar"]) ++
    (if numbers_equal (get_column row 10) (dict_get inv (lc "netto_ar"))
      then [] else [lc "netto_ar"])

/-- Output row emitted by `compare_rows` for one trace entry. -/
def emit_order_row (p : OrderRow × Option InvoiceRow) : OrderRow :=
  let mism := row_mismatches p.1 p.2
  p.1 ++ [some (order_key p.1),
          some (if mism = [] then lc "OK" else lc "Mismatch"),
          some (commaJoin mism)]

/-- `order_compare.compare_rows`: empty input short-circuits to empty
output; otherwise the header row gains three extra columns and each
following order row is paired and annotated. -/
def compare_rows (order_rows : List OrderRow) (invoice_rows : List InvoiceRow)
    (_invoice_header : List PyStr) : List OrderRow × List Bool :=
  match order_rows with
  | [] => ([], [])
  | h :: rest =>
    let trace := order_trace (h :: rest) invoice_rows
    ((h ++ [some (lc "processed_kod"), some (lc "status"), some (lc "mismatch_details")])
        :: trace.map emit_order_row,
      true :: trace.map (fun p => row_mismatches p.1 p.2 = []))

/-- Mismatch list computed by the loop body of `compare_invoice_rows`. -/
def invoice_row_mismatches (invoice_row : InvoiceRow) (order_row : Option OrderRow) :
    List PyStr :=
  match order_row with
  | none => [lc "missing_order_row"]
  | some row =>
    (if numbers_equal (get_column row 6) (dict_get invoice_row (lc "db"))
      then [] else [lc "db"]) ++
    (if numbers_equal (get_column row 9) (dict_get invoice_row (lc "egyseg_ar"))
      then [] else [lc "egyseg_ar"]) ++
    (if numbers_equal (get_column row 10) (dict_get invoice_row (lc "netto_ar"))
      then [] else [lc "netto_ar"])

/-- Output row emitted by `compare_invoice_rows` for one trace entry. -/
def emit_invoice_row (header : List PyStr) (p : InvoiceRow × Option OrderRow) : OrderRow :=
  let mism := invoice_row_mismatches p.1 p.2
  header.map (fun name => dict_get_blank p.1 name) ++
    [some (if mism = [] then lc "OK" else lc "Mismatch"),
     some (commaJoin mism)]

/-- `order_compare.compare_invoice_rows`. -/
def compare_invoice_rows (order_rows : List OrderRow) (invoice_rows : List InvoiceRow)
    (invoice_header : List PyStr) : List OrderRow × List Bool :=
  let trace := invoice_trace order_rows invoice_rows
  (((invoice_header.map (fun n => (some n : Cell))) ++
      [some (lc "status"), some (lc "mismatch_details")])
      :: trace.map (emit_invoice_row invoice_header),
    true :: trace.map (fun p => invoice_row_mismatches p.1 p.2 = []))

end PdfReader.OrderCompare

namespace PdfReader

/-! ### Model of `float(...)` string acceptance (used by `main.is_numeric`) -/

/-- A digit run as allowed in Python numeric strings for `float()`:
nonempty, starts and ends with a digit, underscores only singly and between
digits. -/
def goodDigitRun (l : PyStr) : Bool :=
  !l.isEmpty &&
  l.all (fun c => c.isDigit || c == '_') &&
  (match l.head? with | some c => c.isDigit | none => false) &&
  (match l.getLast? with | some c => c.isDigit | none => false) &&
  noDoubleUnderscore l
where
  /-- no two adjacent underscores -/
  noDoubleUnderscore : PyStr → Bool
    | [] => true
    | [_] => true
    | a :: b :: rest => !(a == '_' && b == '_') && noDoubleUnderscore (b :: rest)

/-- Optional exponent suffix of a `float()` literal; rejects trailing text. -/
def floatExpOk : PyStr → Bool
  | [] => true
  | e :: r =>
    if e.toLower = 'e' then
      let sr := parseSign r
      let dr := sr.2.span (fun c => c.isDigit || c == '_')
      goodDigitRun dr.1 && dr.2.isEmpty
    else false

/-- Significand (and exponent) of a `float()` literal. -/
def floatNumberOk (r : PyStr) : Bool :=
  let d1 := r.span (fun c => c.isDigit || c == '_')
  if !d1.1.isEmpty && !goodDigitRun d1.1 then false
  else
    match d1.2 with
    | '.' :: r2 =>
      let d2 := r2.span (fun c => c.isDigit || c == '_')
      if !d2.1.isEmpty && !goodDigitRun d2.1 then false
      else if d1.1.isEmpty && d2.1.isEmpty then false
      else floatExpOk d2.2
    | _ => if d1.1.isEmpty then false else floatExpOk d1.2

/-- Model of "`float(s)` succeeds": surrounding whitespace is ignored, then
optional sign and either `inf`/`infinity`/`nan` (case-insensitive) or a
decimal literal with optional underscores and exponent.  ASCII digits
only. -/
def pyFloatOk (s : PyStr) : Bool :=
  let t := pyStrip s
  let sr := parseSign t
  let low := sr.2.map Char.toLower
  if low = lc "inf" || low = lc "infinity" || low = lc "nan" then true
  else floatNumberOk sr.2

end PdfReader

namespace PdfReader.Main

/-- `main.normalize_numeric`: replace NBSP by space, delete spaces, commas
to dots (no strip, returns the normalised string). -/
def normalize_numeric (value : PyStr) : PyStr :=
  replaceAll [','] ['.'] (replaceAll [' '] [] (replaceAll ['\u00A0'] [' '] value))

/-- `main.is_numeric`: `float(normalize_numeric(value))` succeeds. -/
def is_numeric (value : PyStr) : Bool :=
  pyFloatOk (normalize_numeric value)

/-- `main.format_currency`: normalised number with dots turned back into
commas. -/
def format_currency (value : PyStr) : PyStr :=
  replaceAll ['.'] [','] (normalize_numeric value)

/-- `main.TEXT_FIXES`: full-string corrections applied last. -/
def TEXT_FIXES : List (PyStr × PyStr) :=
  [(lc "Magasfényû antracit", lc "Magasfényű antracit"),
   (lc "Magasfényû krém", lc "Magasfényű krém"),
   (lc "Magasfényû latte", lc "Magasfényű latte"),
   (lc "Magasfényû fehér", lc "Magasfényű fehér"),
   (lc "Matt ANTRAZITE", lc "Matt antracit")]

/-- `main.MOJIBAKE_FIXES`, in dict insertion order. -/
def MOJIBAKE_FIXES : List (PyStr × PyStr) :=
  [(lc "├í", lc "á"), (lc "├ę", lc "é"), (lc "├ş", lc "í"), (lc "├│", lc "ó"),
   (lc "├Â", lc "ö"), (lc "┼Ĺ", lc "ő"), (lc "├║", lc "ú"), (lc "├╝", lc "ü"),
   (lc "┼▓", lc "ű"), (lc "├ü", lc "Á"), (lc "├ë", lc "É"), (lc "├Ź", lc "Í"),
   (lc "├ô", lc "Ó"), (lc "├ľ", lc "Ö"), (lc "┼É", lc "Ő"), (lc "├Ü", lc "Ú"),
   (lc "├ť", lc "Ü"), (lc "┼░", lc "Ű")]

/-- `main.fix_mojibake`: apply every mojibake substitution in table order. -/
def fix_mojibake (value : PyStr) : PyStr :=
  MOJIBAKE_FIXES.foldl (fun acc pr => replaceAll pr.1 pr.2 acc) value

/-- `TEXT_FIXES.get(fixed, fixed)`. -/
def textFixLookup (s : PyStr) : PyStr :=
  match TEXT_FIXES.find? (fun pr => pr.1 = s) with
  | some pr => pr.2
  | none => s

/-- `main.normalize_text`: mojibake fixes; NBSP to space; collapse double
spaces once; strip; `û` to `ű`; delete `Â`; re-join the whitespace-split
words with single spaces; finally the full-string `TEXT_FIXES` lookup. -/
def normalize_text (value : PyStr) : PyStr :=
  let f1 := fix_mojibake value
  let f2 := replaceAll ['\u00A0'] [' '] f1
  let f3 := replaceAll [' ', ' '] [' '] f2
  let f4 := pyStrip f3
  let f5 := replaceAll ['û'] ['ű'] f4
  let f6 := replaceAll ['Â'] [] f5
  let f7 := spaceJoin (pySplit f6)
  textFixLookup f7

/-- A parsed invoice line-item record as built by `main.parse_rows`
(the numeric fields hold the already-normalised strings). -/
structure InvRecord where
  termek : PyStr
  szin : PyStr
  meret : PyStr
  m2 : PyStr
  db : PyStr
  ossz_m2 : PyStr
  egyseg_ar : PyStr
  netto_ar : PyStr
deriving DecidableEq, Repr

/-- One acceptance test of `parse_rows`: the size has an `x` and all five
numeric strings are `float`-parseable after normalisation. -/
def rowGuard (meret m2 db ossz_m2 egyseg_ar netto_ar : PyStr) : Bool :=
  'x' ∈ meret &&
  (is_numeric m2 && is_numeric db && is_numeric ossz_m2 &&
   is_numeric egyseg_ar && is_numeric netto_ar)

/-- Skip a following `Négyzetméterár` line after an accepted record. -/
def skipSquareMeterLine : List PyStr → List PyStr
  | [] => []
  | l :: rest => if (lc "Négyzetméterár").isPrefixOf l then rest else l :: rest

/-- State update of the scan at a non-sentinel line: a line starting with
`Összesítve` leaves the table region. -/
def nextInTable (in_table : Bool) (l : PyStr) : Bool :=
  if (lc "Összesítve").isPrefixOf l then false else in_table

/-- Fuelled worker for `parse_rows`'s scanning loop; the fuel (initially the
number of lines) only makes the variable-stride cursor structural. -/
def parseLoopF : Nat → Bool → List PyStr → List InvRecord
  | 0, _, _ => []
  | _ + 1, _, [] => []
  | fuel + 1, in_table, l :: rest =>
    if l = lc "Nettó ár" then parseLoopF fuel true rest
    else
      if nextInTable in_table l ∧ pyIsDigitStr l ∧ 8 ≤ rest.length then
        match rest with
        | termek :: szin :: meret :: m2 :: db :: ossz_m2 :: egyseg_ar :: netto_ar :: rest2 =>
          if rowGuard meret m2 db ossz_m2 egyseg_ar netto_ar then
            { termek := termek, szin := szin, meret := meret,
              m2 := normalize_numeric m2, db := normalize_numeric db,
              ossz_m2 := normalize_numeric ossz_m2,
              egyseg_ar := normalize_numeric egyseg_ar,
              netto_ar := normalize_numeric netto_ar } ::
              parseLoopF fuel (nextInTable in_table l) (skipSquareMeterLine rest2)
          else parseLoopF fuel (nextInTable in_table l) rest
        | _ => parseLoopF fuel (nextInTable in_table l) rest
      else parseLoopF fuel (nextInTable in_table l) rest

/-- `main.parse_rows`: strip every line, drop blank lines, then scan with
the `Nettó ár` / `Összesítve` table state machine for 9-line records. -/
def parse_rows (text : PyStr) : List InvRecord :=
  let lines := ((pySplitlines text).map pyStrip).filter (fun l => l ≠ [])
  parseLoopF lines.length false lines

/-- One entry of the translation table (`{"name": ..., "code": ...}`, either
key possibly absent). -/
structure TransMeta where
  name : Option PyStr
  code : Option PyStr
deriving DecidableEq, Repr

/-- The translation table (decoded `translations.json`). -/
structure TransTable where
  products : List (PyStr × TransMeta)
  colors : List (PyStr × TransMeta)
  standard_sizes : List PyStr
deriving DecidableEq, Repr

/-- `dict.get(key, {})` on a products/colors mapping. -/
def metaGet (m : List (PyStr × TransMeta)) (k : PyStr) : TransMeta :=
  match m.find? (fun pr => pr.1 = k) with
  | some pr => pr.2
  | none => { name := none, code := none }

/-- A translated output record (adds the derived `kod` column). -/
structure OutRecord where
  termek : PyStr
  szin : PyStr
  meret : PyStr
  m2 : PyStr
  db : PyStr
  ossz_m2 : PyStr
  egyseg_ar : PyStr
  netto_ar : PyStr
  kod : PyStr
deriving DecidableEq, Repr

/-- `"_".join(filter(None, parts))`. -/
def underscoreJoin (parts : List PyStr) : PyStr :=
  charJoin '_' (parts.filter (fun p => p ≠ []))

/-- `product_code.split("_")[-1]`. -/
def lastUnderscoreSegment (s : PyStr) : PyStr :=
  (splitOnChar '_' s).getLastD []

/-- `product_code = product_meta.get("code", termek)` with `termek` the
normalised product name. -/
def product_code (table : TransTable) (row : InvRecord) : PyStr :=
  (metaGet table.products (normalize_text row.termek)).code.getD
    (normalize_text row.termek)

/-- `color_code = color_meta.get("code", szin)` with `szin` the normalised
color name. -/
def color_code (table : TransTable) (row : InvRecord) : PyStr :=
  (metaGet table.colors (normalize_text row.szin)).code.getD
    (normalize_text row.szin)

/-- `model_code = product_code.split("_")[-1]`. -/
def model_code (table : TransTable) (row : InvRecord) : PyStr :=
  lastUnderscoreSegment (product_code table row)

/-- Loop body of `main.apply_translations` for a single row. -/
def apply_translations_row (table : TransTable) (row : InvRecord) : OutRecord :=
  let termek := normalize_text row.termek
  let szin := normalize_text row.szin
  let meret := replaceAll [' '] [] row.meret
  let kod :=
    if meret = lc "718x250" then
      underscoreJoin [lc "NFAH", model_code table row, color_code table row, meret]
    else if meret ∈ table.standard_sizes then
      underscoreJoin [product_code table row, color_code table row, meret]
    else
      underscoreJoin [lc "NFAY", model_code table row, color_code table row, meret]
  { termek := (metaGet table.products termek).name.getD termek,
    szin := (metaGet table.colors szin).name.getD szin,
    meret := meret,
    m2 := row.m2, db := row.db, ossz_m2 := row.ossz_m2,
    egyseg_ar := row.egyseg_ar, netto_ar := row.netto_ar,
    kod := kod }

/-- `main.apply_translations`. -/
def apply_translations (rows : List InvRecord) (table : TransTable) : List OutRecord :=
  rows.map (apply_translations_row table)

/-- The part of the execution environment of `main.main()` that the
fail-fast claim depends on: the text extracted from the (present) PDF and
the translation table, `none` when `--translations` names a missing file. -/
structure Env where
  pdf_text : PyStr
  translations : Option TransTable

/-- Errors that abort `main.main()`. -/
inductive MainError where
  | translationNotFound
deriving DecidableEq, Repr

/-- `main.load_translations`: raises `FileNotFoundError` when the path is
not a file, otherwise returns the decoded table. -/
def load_translations (env : Env) : Except MainError TransTable :=
  match env.translations with
  | none => Except.error MainError.translationNotFound
  | some t => Except.ok t

/-- The row-processing pipeline of `main.main()` after argument handling:
parse the rows, load the translation table (which may raise), translate,
and format the two currency columns.  The returned list is exactly the rows
the CSV writer would emit. -/
def mainRows (env : Env) : Except MainError (List OutRecord) :=
  let rows := parse_rows env.pdf_text
  match load_translations env with
  | Except.error e => Except.error e
  | Except.ok table =>
    Except.ok ((apply_translations rows table).map
      (fun row => { row with egyseg_ar := format_currency row.egyseg_ar,
                             netto_ar := format_currency row.netto_ar }))

end PdfReader.Main

namespace PdfReader.OrderCompare

/-! ### Concrete example data (used by witnesses) -/

/-- Example order-file header row. -/
def exHeaderRow : OrderRow := [some (lc "h1")]

/-- Example order data row: code `ABC` in column 4, quantity 2 (column 6),
unit price `10,5` (column 9), net price `21` (column 10). -/
def exOrderRow : OrderRow :=
  [none, none, none, some (lc "ABC"), none, some (lc "2"), none, none,
   some (lc "10,5"), some (lc "21")]

/-- A second order data row sharing the key `ABC`. -/
def exOrderRow2 : OrderRow :=
  [none, none, none, some (lc "ABC"), none, some (lc "3"), none, none,
   some (lc "7"), some (lc "21")]

/-- Example invoice row matching `exOrderRow`. -/
def exInvoiceRow : InvoiceRow :=
  [(lc "kod", some (lc "ABC")), (lc "db", some (lc "2")),
   (lc "egyseg_ar", some (lc "10.5")), (lc "netto_ar", some (lc "21"))]

/-- A second invoice row with key `ABC` (matching `exOrderRow2`). -/
def exInvoiceRow2 : InvoiceRow :=
  [(lc "kod", some (lc "ABC")), (lc "db", some (lc "3")),
   (lc "egyseg_ar", some (lc "7")), (lc "netto_ar", some (lc "21"))]

end PdfReader.OrderCompare

namespace PdfReader.Main

/-! ### Concrete example data (used by witnesses) -/

/-- Example translation table: one product whose code ends in `_X1`, one
color with code `C2`, one standard size. -/
def exTable : TransTable :=
  { products := [(lc "Prod", { name := some (lc "Product"), code := some (lc "KOD_X1") })],
    colors := [(lc "Color", { name := some (lc "Colour"), code := some (lc "C2") })],
    standard_sizes := [lc "800x400"] }

/-- Example parsed record with the special size `718x250`. -/
def exRow718 : InvRecord :=
  { termek := lc "Prod", szin := lc "Color", meret := lc "718x250",
    m2 := lc "1.25", db := lc "2", ossz_m2 := lc "2.50",
    egyseg_ar := lc "1000.00", netto_ar := lc "2500.00" }

/-- Example record whose size contains a tab character. -/
def exRowTab : InvRecord :=
  { termek := lc "P", szin := lc "C", meret := lc "718\tx250",
    m2 := lc "1.25", db := lc "2", ossz_m2 := lc "2.50",
    egyseg_ar := lc "1000.00", netto_ar := lc "2500.00" }

/-- Example extracted PDF text holding one valid 9-line record inside the
table region. -/
def exText : PyStr :=
  lc "junk\nNettó ár\n1\nProd\nColor\n800x400\n1,25\n2\n2,50\n1000,00\n2500,00\nNégyzetméterár 10\nÖsszesítve\n5\n"

end PdfReader.Main

namespace PdfReader

/-! ## Lemmas about the string primitives -/

theorem findCharAux_eq_none_iff (c : Char) (l : PyStr) (i : Nat) :
    findCharAux c l i = none ↔ c ∉ l := by
  induction l generalizing i with
  | nil => simp [findCharAux]
  | cons d rest ih =>
    by_cases hd : d = c
    · simp [findCharAux, hd]
    · simp only [findCharAux, if_neg hd, List.mem_cons]
      rw [ih]
      constructor
      · rintro h (rfl | h2)
        · exact hd rfl
        · exact h h2
      · intro h h2
        exact h (Or.inr h2)

theorem findCharAux_eq_some (c : Char) (l : PyStr) (i j : Nat)
    (h : findCharAux c l i = some j) :
    ∃ k, j = i + k ∧ l.get? k = some c ∧ ∀ m, m < k → l.get? m ≠ some c := by
  induction l generalizing i with
  | nil => simp [findCharAux] at h
  | cons d rest ih =>
    by_cases hd : d = c
    · simp only [findCharAux, if_pos hd, Option.some.injEq] at h
      exact ⟨0, by omega, by simp [hd], fun m hm => absurd hm (by omega)⟩
    · simp only [findCharAux, if_neg hd] at h
      obtain ⟨k, hk, hget, hmin⟩ := ih (i + 1) h
      refine ⟨k + 1, by omega, by simpa using hget, ?_⟩
      intro m hm
      match m with
      | 0 => simpa using hd
      | m + 1 =>
        simp only [List.get?_cons_succ]
        exact hmin m (by omega)

theorem pyFind_eq_some (c : Char) (start : Nat) (s : PyStr) (idx : Nat)
    (h : pyFind c start s = some idx) :
    start ≤ idx ∧ idx - start < (s.drop start).length ∧
      (s.drop start).get? (idx - start) = some c ∧
      ∀ m, m < idx - start → (s.drop start).get? m ≠ some c := by
  simp only [pyFind, Option.map_eq_some'] at h
  obtain ⟨j, hj, rfl⟩ := h
  obtain ⟨k, hk, hget, hmin⟩ := findCharAux_eq_some c (s.drop start) 0 j hj
  subst hk
  have hlt : k < (s.drop start).length := by
    by_contra hge
    rw [List.get?_eq_none.2 (by omega)] at hget
    exact Option.noConfusion hget
  have hks : 0 + k + start - start = k := by omega
  rw [hks]
  exact ⟨by omega, hlt, hget, hmin⟩

theorem pyFind_eq_none_of (c : Char) (start : Nat) (s : PyStr)
    (h : ∀ m, (s.drop start).get? m ≠ some c) : pyFind c start s = none := by
  simp only [pyFind, Option.map_eq_none']
  rw [findCharAux_eq_none_iff]
  intro hmem
  obtain ⟨n, hn⟩ := List.get?_of_mem hmem
  exact h n hn

/-- Unfolding of `left_until_underscore` on a string cell. -/
theorem left_until_underscore_some (s : PyStr) :
    OrderCompare.left_until_underscore (some s) =
      if pyStrip s = [] then []
      else
        match pyFind '_' 15 (pyStrip s) with
        | none => pyStrip s
        | some idx => (pyStrip s).take idx := rfl

/-- C6, counterexample: `left_until_underscore` is not truncation-stable as
claimed for every string.  On `"aaaaaaaaaaaaaaaa _b"` (an underscore at
index 17 preceded by a space) the first application yields a key with a
trailing space, and re-applying strips that space, giving a different
string. -/
theorem c6_counterexample :
    OrderCompare.left_until_underscore
        (some (OrderCompare.left_until_underscore (some (lc "aaaaaaaaaaaaaaaa _b")))) ≠
      OrderCompare.left_until_underscore (some (lc "aaaaaaaaaaaaaaaa _b")) := by
  decide

/-- C6, amended: `left_until_underscore` is truncation-stable on every value
whose derived key carries no surrounding whitespace (equivalently, the key
is its own `strip`); in particular re-truncating such an
already-truncated key returns it unchanged. -/
theorem c6_truncation_stable (v : OrderCompare.Cell)
    (h : pyStrip (OrderCompare.left_until_underscore v) = OrderCompare.left_until_underscore v) :
    OrderCompare.left_until_underscore (some (OrderCompare.left_until_underscore v)) =
      OrderCompare.left_until_underscore v := by
  have hv : OrderCompare.left_until_underscore v =
      if OrderCompare.normalize_text v = [] then []
      else
        match pyFind '_' 15 (OrderCompare.normalize_text v) with
        | none => OrderCompare.normalize_text v
        | some idx => (OrderCompare.normalize_text v).take idx := rfl
  by_cases ht : OrderCompare.normalize_text v = []
  · rw [hv, if_pos ht] at h ⊢
    rw [left_until_underscore_some]
    simp [pyStrip]
  · rw [hv, if_neg ht] at h ⊢
    cases hfind : pyFind '_' 15 (OrderCompare.normalize_text v) with
    | none =>
      rw [hfind] at h
      have h2 : pyStrip (OrderCompare.normalize_text v) = OrderCompare.normalize_text v := h
      show OrderCompare.left_until_underscore (some (OrderCompare.normalize_text v)) =
        OrderCompare.normalize_text v
      rw [left_until_underscore_some, h2, if_neg ht, hfind]
    | some idx =>
      rw [hfind] at h
      have h2 : pyStrip ((OrderCompare.normalize_text v).take idx) =
          (OrderCompare.normalize_text v).take idx := h
      show OrderCompare.left_until_underscore
          (some ((OrderCompare.normalize_text v).take idx)) =
        (OrderCompare.normalize_text v).take idx
      set t := OrderCompare.normalize_text v with htdef
      obtain ⟨hstart, hlt, hget, hmin⟩ := pyFind_eq_some '_' 15 t idx hfind
      have hlen : idx < t.length := by
        have := (List.length_drop 15 t) ▸ hlt
        omega
      have htake_len : (t.take idx).length = idx := by
        rw [List.length_take]
        omega
      have htake_ne : t.take idx ≠ [] := by
        intro hnil
        rw [hnil] at htake_len
        simp at htake_len
        omega
      rw [left_until_underscore_some, h, if_neg htake_ne]
      have hnone : pyFind '_' 15 (t.take idx) = none := by
        apply pyFind_eq_none_of
        intro m
        rw [List.get?_eq_getElem?, List.getElem?_drop, List.getElem?_take]
        by_cases hin : 15 + m < idx
        · rw [if_pos hin]
          have := hmin m (by omega)
          rw [List.get?_eq_getElem?, List.getElem?_drop] at this
          exact this
        · rw [if_neg hin]
          exact fun hc => Option.noConfusion hc
      rw [hnone]

/-- C6 witness: a concrete already-stripped key, `"aaaaaaaaaaaaaaaa_b"`. -/
theorem c6_truncation_stable_witness :
    OrderCompare.left_until_underscore
        (some (OrderCompare.left_until_underscore (some (lc "aaaaaaaaaaaaaaaa_b")))) =
      OrderCompare.left_until_underscore (some (lc "aaaaaaaaaaaaaaaa_b")) :=
  c6_truncation_stable (some (lc "aaaaaaaaaaaaaaaa_b")) (by decide)

/-! ## Lemmas about `pyStrip` -/

theorem dropWhile_head_not (p : Char → Bool) (l : PyStr) (c : Char)
    (h : (l.dropWhile p).head? = some c) : p c = false := by
  have := List.head?_dropWhile_not p l
  rw [h] at this
  exact this

theorem dropWhile_eq_self_of_head (p : Char → Bool) (l : PyStr)
    (h : ∀ c, l.head? = some c → p c = false) : l.dropWhile p = l := by
  cases l with
  | nil => rfl
  | cons x xs =>
    rw [List.dropWhile_cons, if_neg]
    rw [h x rfl]
    simp

theorem getLast?_of_suffix {l₁ l₂ : PyStr} (h : l₁ <:+ l₂) (c : Char)
    (hc : l₁.getLast? = some c) : l₂.getLast? = some c := by
  obtain ⟨t, rfl⟩ := h
  rw [List.getLast?_append, hc]
  rfl

/-- `pyStrip` is the identity on strings with no leading and no trailing
whitespace. -/
theorem pyStrip_eq_self (s : PyStr)
    (h1 : ∀ c, s.head? = some c → pyIsSpace c = false)
    (h2 : ∀ c, s.getLast? = some c → pyIsSpace c = false) : pyStrip s = s := by
  unfold pyStrip
  rw [dropWhile_eq_self_of_head _ _ h1]
  rw [dropWhile_eq_self_of_head]
  · exact s.reverse_reverse
  · intro c hc
    rw [List.head?_reverse] at hc
    exact h2 c hc

/-- `str.strip()` is idempotent. -/
theorem pyStrip_idem (s : PyStr) : pyStrip (pyStrip s) = pyStrip s := by
  apply pyStrip_eq_self
  · intro c hc
    unfold pyStrip at hc
    rw [List.head?_reverse] at hc
    have := getLast?_of_suffix (List.dropWhile_suffix pyIsSpace) c hc
    rw [List.getLast?_reverse] at this
    exact dropWhile_head_not _ _ _ this
  · intro c hc
    unfold pyStrip at hc
    rw [List.getLast?_reverse] at hc
    exact dropWhile_head_not _ _ _ hc

/-! ## Lemmas about `replaceAll` -/

theorem isPrefixOf_cons_eq (a c : Char) (p l : PyStr) :
    (a :: p).isPrefixOf (c :: l) = (a == c && p.isPrefixOf l) := rfl

/-- A replacement whose pattern starts with a character absent from the
string leaves the string unchanged (any fuel). -/
theorem replaceAllF_id_of_head_not_mem (a : Char) (p repl : PyStr) (fuel : Nat)
    (s : PyStr) (ha : a ∉ s) : replaceAllF (a :: p) repl fuel s = s := by
  induction fuel generalizing s with
  | zero => cases s <;> rfl
  | succ fuel ih =>
    cases s with
    | nil => rfl
    | cons c cs =>
      have hac : ¬ a = c := fun h => ha (h ▸ List.mem_cons_self a cs)
      rw [replaceAllF, if_neg]
      · rw [ih cs (fun h => ha (List.mem_cons_of_mem c h))]
      · rintro ⟨-, hpre⟩
        rw [isPrefixOf_cons_eq] at hpre
        simp only [Bool.and_eq_true, beq_iff_eq] at hpre
        exact hac hpre.1

theorem replaceAll_id_of_head_not_mem (a : Char) (p repl : PyStr) (s : PyStr)
    (ha : a ∉ s) : replaceAll (a :: p) repl s = s :=
  replaceAllF_id_of_head_not_mem a p repl s.length s ha

/-- Characters of a replacement result come from the replacement string or
the input. -/
theorem mem_replaceAllF (c : Char) (pat repl : PyStr) (fuel : Nat) (s : PyStr)
    (h : c ∈ replaceAllF pat repl fuel s) : c ∈ repl ∨ c ∈ s := by
  induction fuel generalizing s with
  | zero =>
    cases s with
    | nil => simp [replaceAllF] at h
    | cons d cs => exact Or.inr h
  | succ fuel ih =>
    cases s with
    | nil => simp [replaceAllF] at h
    | cons d cs =>
      rw [replaceAllF] at h
      by_cases hc : pat ≠ [] ∧ pat.isPrefixOf (d :: cs)
      · rw [if_pos hc] at h
        rcases List.mem_append.1 h with h1 | h2
        · exact Or.inl h1
        · rcases ih _ h2 with h3 | h4
          · exact Or.inl h3
          · exact Or.inr (List.drop_subset _ _ h4)
      · rw [if_neg hc] at h
        rcases List.mem_cons.1 h with rfl | h2
        · exact Or.inr (List.mem_cons_self _ _)
        · rcases ih _ h2 with h3 | h4
          · exact Or.inl h3
          · exact Or.inr (List.mem_cons_of_mem _ h4)

theorem mem_replaceAll (c : Char) (pat repl : PyStr) (s : PyStr)
    (h : c ∈ replaceAll pat repl s) : c ∈ repl ∨ c ∈ s :=
  mem_replaceAllF c pat repl s.length s h

/-- After replacing every occurrence of the single character `a` by a string
not containing it, `a` is gone (needs enough fuel). -/
theorem not_mem_replaceAllF_single (a : Char) (repl : PyStr) (fuel : Nat) (s : PyStr)
    (hr : a ∉ repl) (hfuel : s.length ≤ fuel) : a ∉ replaceAllF [a] repl fuel s := by
  induction fuel generalizing s with
  | zero =>
    have : s = [] := List.length_eq_zero.1 (by omega)
    subst this
    simp [replaceAllF]
  | succ fuel ih =>
    cases s with
    | nil => simp [replaceAllF]
    | cons d cs =>
      by_cases hd : a = d
      · subst hd
        rw [replaceAllF, if_pos]
        · intro hmem
          rcases List.mem_append.1 hmem with h1 | h2
          · exact hr h1
          · exact ih cs (by simpa using Nat.le_of_succ_le_succ hfuel) h2
        · exact ⟨by simp, by rw [isPrefixOf_cons_eq]; simp [List.isPrefixOf]⟩
      · rw [replaceAllF, if_neg]
        · intro hmem
          rcases List.mem_cons.1 hmem with h1 | h2
          · exact hd h1
          · exact ih cs (by simpa using Nat.le_of_succ_le_succ hfuel) h2
        · rintro ⟨-, hpre⟩
          rw [isPrefixOf_cons_eq] at hpre
          simp only [Bool.and_eq_true, beq_iff_eq] at hpre
          exact hd hpre.1

theorem not_mem_replaceAll_single (a : Char) (repl : PyStr) (s : PyStr)
    (hr : a ∉ repl) : a ∉ replaceAll [a] repl s :=
  not_mem_replaceAllF_single a repl s.length s hr le_rfl

/-- The result of `pyStrip` is a sublist of the input (character
preservation direction used below). -/
theorem mem_pyStrip {c : Char} {s : PyStr} (h : c ∈ pyStrip s) : c ∈ s := by
  unfold pyStrip at h
  rw [List.mem_reverse] at h
  have h2 := (List.dropWhile_suffix pyIsSpace).subset h
  rw [List.mem_reverse] at h2
  exact (List.dropWhile_suffix pyIsSpace).subset h2

end PdfReader

namespace PdfReader.OrderCompare

/-! ## Lemmas about the matching engine -/

theorem buildIndex_foldl {α : Type} (key : α → PyStr) (rows : List α)
    (init : PyStr → List α) (k : PyStr) :
    (rows.foldl (fun idx r => fun k2 => if k2 = key r then idx k2 ++ [r] else idx k2) init) k =
      init k ++ rows.filter (fun r => decide (key r = k)) := by
  induction rows generalizing init with
  | nil => simp
  | cons r rs ih =>
    rw [List.foldl_cons, ih, List.filter_cons]
    by_cases hk : key r = k
    · rw [if_pos hk.symm, if_pos (decide_eq_true hk)]
      simp
    · rw [if_neg (fun h => hk h.symm), if_neg (fun h => hk (of_decide_eq_true h))]

/-- The bucket of key `k` holds exactly the rows with key `k`, in input
order. -/
theorem buildIndex_apply {α : Type} (key : α → PyStr) (rows : List α) (k : PyStr) :
    buildIndex key rows k = rows.filter (fun r => decide (key r = k)) := by
  unfold buildIndex
  rw [buildIndex_foldl]
  rfl

theorem runMatch_cons_queue_nil {δ α : Type} (kd : δ → PyStr) (idx : PyStr → List α)
    (d : δ) (ds : List δ) (hq : idx (kd d) = []) :
    runMatch kd idx (d :: ds) = (d, none) :: runMatch kd idx ds := by
  rw [runMatch, hq]

theorem runMatch_cons_queue_cons {δ α : Type} (kd : δ → PyStr) (idx : PyStr → List α)
    (d : δ) (ds : List δ) (a : α) (rest : List α) (hq : idx (kd d) = a :: rest) :
    runMatch kd idx (d :: ds) =
      (d, some a) :: runMatch kd (fun k2 => if k2 = kd d then rest else idx k2) ds := by
  rw [runMatch, hq]

/-- One output pair per driven row. -/
theorem runMatch_length {δ α : Type} (kd : δ → PyStr) (idx : PyStr → List α)
    (ds : List δ) : (runMatch kd idx ds).length = ds.length := by
  induction ds generalizing idx with
  | nil => rfl
  | cons d0 ds ih =>
    cases hq : idx (kd d0) with
    | nil => rw [runMatch_cons_queue_nil kd idx d0 ds hq]; simp [ih]
    | cons a rest => rw [runMatch_cons_queue_cons kd idx d0 ds a rest hq]; simp [ih]

/-- Characterisation of the pairing: the `i`-th driven row `d` is paired
with the `n`-th entry of the initial queue of its key, where `n` counts the
earlier driven rows sharing that key (`none` when the queue is too
short). -/
theorem runMatch_get?_spec {δ α : Type} (kd : δ → PyStr) (idx : PyStr → List α)
    (ds : List δ) (i : Nat) (d : δ) (m : Option α)
    (h : (runMatch kd idx ds).get? i = some (d, m)) :
    ds.get? i = some d ∧
      m = (idx (kd d)).get?
            (((ds.take i).filter (fun x => decide (kd x = kd d))).length) := by
  induction ds generalizing idx i with
  | nil => simp [runMatch] at h
  | cons d0 ds ih =>
    cases hq : idx (kd d0) with
    | nil =>
      rw [runMatch_cons_queue_nil kd idx d0 ds hq] at h
      cases i with
      | zero =>
        simp only [List.get?_cons_zero, Option.some.injEq, Prod.mk.injEq] at h
        obtain ⟨rfl, rfl⟩ := h
        refine ⟨rfl, ?_⟩
        rw [hq]
        simp
      | succ i =>
        rw [List.get?_cons_succ] at h
        obtain ⟨h1, h2⟩ := ih idx i h
        refine ⟨by simpa using h1, ?_⟩
        rw [List.take_succ_cons, List.filter_cons]
        by_cases hd0 : kd d0 = kd d
        · rw [if_pos (by simpa using hd0)]
          rw [← hd0, hq] at h2 ⊢
          simp only [List.length_cons]
          rw [h2]
          simp
        · rw [if_neg (by simpa using hd0)]
          exact h2
    | cons a rest =>
      rw [runMatch_cons_queue_cons kd idx d0 ds a rest hq] at h
      cases i with
      | zero =>
        simp only [List.get?_cons_zero, Option.some.injEq, Prod.mk.injEq] at h
        obtain ⟨rfl, rfl⟩ := h
        refine ⟨rfl, ?_⟩
        rw [hq]
        simp
      | succ i =>
        rw [List.get?_cons_succ] at h
        obtain ⟨h1, h2⟩ := ih _ i h
        refine ⟨by simpa using h1, ?_⟩
        rw [List.take_succ_cons, List.filter_cons]
        by_cases hd0 : kd d0 = kd d
        · rw [if_pos (by simpa using hd0)]
          rw [if_pos hd0.symm] at h2
          have hq2 : idx (kd d) = a :: rest := by rw [← hd0]; exact hq
          rw [hq2]
          simp only [List.length_cons]
          rw [List.get?_cons_succ]
          exact h2
        · rw [if_neg (by simpa using hd0)]
          rw [if_neg (fun h4 => hd0 h4.symm)] at h2
          exact h2

/-- Strict growth of the per-key counter along the driving list. -/
theorem length_filter_take_lt {δ : Type} (p : δ → Bool) (l : List δ) (i j : Nat)
    (hij : i < j) (d : δ) (hd : l.get? i = some d) (hp : p d = true) :
    ((l.take i).filter p).length < ((l.take j).filter p).length := by
  have hstep : (l.take (i + 1)).filter p = (l.take i).filter p ++ [d] := by
    rw [List.take_succ]
    rw [List.get?_eq_getElem?] at hd
    rw [hd]
    simp [List.filter_append, hp]
  have hsub : l.take (i + 1) <+: l.take j := by
    have heq : List.take (i + 1) (List.take j l) = List.take (i + 1) l := by
      rw [List.take_take, Nat.min_eq_left (by omega)]
    rw [← heq]
    exact List.take_prefix _ _
  have hlen := (hsub.filter p).length_le
  rw [hstep] at hlen
  simp only [List.length_append, List.length_singleton] at hlen
  omega

/-- Each queue entry is handed out at most once: with duplicate-free queue
rows, distinct driven positions never receive the same queue row. -/
theorem runMatch_buildIndex_at_most_once {δ α : Type} (kd : δ → PyStr) (ka : α → PyStr)
    (qs : List α) (ds : List δ) (hnd : qs.Nodup) (i j : Nat) (di dj : δ) (ai aj : α)
    (hij : i ≠ j)
    (hi : (runMatch kd (buildIndex ka qs) ds).get? i = some (di, some ai))
    (hj : (runMatch kd (buildIndex ka qs) ds).get? j = some (dj, some aj)) :
    ai ≠ aj := by
  obtain ⟨hdi, hmi⟩ := runMatch_get?_spec kd _ ds i di (some ai) hi
  obtain ⟨hdj, hmj⟩ := runMatch_get?_spec kd _ ds j dj (some aj) hj
  rw [buildIndex_apply] at hmi hmj
  have hai : ka ai = kd di := by
    have := List.get?_mem hmi.symm
    exact of_decide_eq_true (List.mem_filter.1 this).2
  have haj : ka aj = kd dj := by
    have := List.get?_mem hmj.symm
    exact of_decide_eq_true (List.mem_filter.1 this).2
  intro heq
  subst heq
  by_cases hk : kd di = kd dj
  · have hpe : (fun x => decide (kd x = kd dj)) = (fun x => decide (kd x = kd di)) := by
      funext x
      rw [hk]
    have hqe : (fun q => decide (ka q = kd dj)) = (fun q => decide (ka q = kd di)) := by
      funext q
      rw [hk]
    rw [hpe, hqe] at hmj
    set F := qs.filter (fun q => decide (ka q = kd di)) with hF
    set ni := ((ds.take i).filter (fun x => decide (kd x = kd di))).length with hni
    set nj := ((ds.take j).filter (fun x => decide (kd x = kd di))).length with hnj
    have hilt : ni < F.length := by
      by_contra hge
      rw [List.get?_eq_none.2 (by omega)] at hmi
      exact Option.noConfusion hmi
    have heqn : ni = nj :=
      List.get?_inj hilt (hnd.filter _) (hmi.symm.trans hmj)
    have hne : ni ≠ nj := by
      rcases Nat.lt_trichotomy i j with hlt | hmid | hgt
      · have := length_filter_take_lt (fun x => decide (kd x = kd di)) ds i j hlt di hdi
          (by simp)
        omega
      · exact absurd hmid hij
      · have := length_filter_take_lt (fun x => decide (kd x = kd di)) ds j i hgt dj hdj
          (by simp [hk])
        omega
    exact hne heqn
  · exact hk (hai.symm.trans haj)

/-- C1: matching is first-match-first-served per derived key.  In the
order-driven pass the `i`-th data row `d` pairs with the `n`-th invoice row
of key `order_key d` (in original invoice order), where `n` counts the
earlier order rows of the same key — so co-keyed rows pair in original
relative order, never swapped — and (for duplicate-free invoice rows) no
invoice row is consumed by two order rows; symmetrically for the
invoice-driven pass. -/
theorem c1_fifo_matching (os : List OrderRow) (vs : List InvoiceRow) :
    (∀ i d m, (order_trace os vs).get? i = some (d, m) →
        (os.drop 1).get? i = some d ∧
          m = (vs.filter (fun v => decide (invoice_key v = order_key d))).get?
                (((os.drop 1).take i).filter
                  (fun r => decide (order_key r = order_key d))).length) ∧
    (vs.Nodup → ∀ i j di dj ai aj, i ≠ j →
        (order_trace os vs).get? i = some (di, some ai) →
        (order_trace os vs).get? j = some (dj, some aj) → ai ≠ aj) ∧
    (∀ i d m, (invoice_trace os vs).get? i = some (d, m) →
        vs.get? i = some d ∧
          m = ((os.drop 1).filter (fun r => decide (order_key r = invoice_key d))).get?
                ((vs.take i).filter
                  (fun v => decide (invoice_key v = invoice_key d))).length) ∧
    ((os.drop 1).Nodup → ∀ i j di dj ai aj, i ≠ j →
        (invoice_trace os vs).get? i = some (di, some ai) →
        (invoice_trace os vs).get? j = some (dj, some aj) → ai ≠ aj) := by
  refine ⟨?_, ?_, ?_, ?_⟩
  · intro i d m h
    have hs := runMatch_get?_spec order_key (build_invoice_index vs) (os.drop 1) i d m h
    rwa [build_invoice_index, buildIndex_apply] at hs
  · intro hnd i j di dj ai aj hij hi hj
    exact runMatch_buildIndex_at_most_once order_key invoice_key vs (os.drop 1) hnd
      i j di dj ai aj hij hi hj
  · intro i d m h
    have hs := runMatch_get?_spec invoice_key (build_order_index os) vs i d m h
    rwa [build_order_index, buildIndex_apply] at hs
  · intro hnd i j di dj ai aj hij hi hj
    exact runMatch_buildIndex_at_most_once invoice_key order_key (os.drop 1) vs hnd
      i j di dj ai aj hij hi hj

/-- C1 witness: two order rows and two invoice rows sharing the key `ABC`;
the first order row takes the first invoice row, and the two paired invoice
rows are distinct. -/
theorem c1_fifo_matching_witness :
    (([exHeaderRow, exOrderRow, exOrderRow2].drop 1).get? 0 = some exOrderRow ∧
      some exInvoiceRow =
        ([exInvoiceRow, exInvoiceRow2].filter
            (fun v => decide (invoice_key v = order_key exOrderRow))).get?
          ((([exHeaderRow, exOrderRow, exOrderRow2].drop 1).take 0).filter
            (fun r => decide (order_key r = order_key exOrderRow))).length) ∧
    exInvoiceRow ≠ exInvoiceRow2 :=
  ⟨(c1_fifo_matching [exHeaderRow, exOrderRow, exOrderRow2]
      [exInvoiceRow, exInvoiceRow2]).1 0 exOrderRow (some exInvoiceRow) (by decide),
   (c1_fifo_matching [exHeaderRow, exOrderRow, exOrderRow2]
      [exInvoiceRow, exInvoiceRow2]).2.1 (by decide) 0 1 exOrderRow exOrderRow2
      exInvoiceRow exInvoiceRow2 (by decide) (by decide) (by decide)⟩

theorem kod_not_mem_numchunk (c : Prop) [Decidable c] (x : PyStr)
    (hx : lc "kod" ≠ x) : lc "kod" ∉ (if c then ([] : List PyStr) else [x]) := by
  split
  · simp
  · simpa using hx

/-- C10: whenever the order-driven pass pairs an order row with an invoice
row, the key re-check succeeds, so `"kod"` never appears in the mismatch
list (the paired row came from the bucket keyed by the order key, which is
itself a stripped string). -/
theorem c10_kod_mismatch_unreachable (os : List OrderRow) (vs : List InvoiceRow) :
    ∀ i d m, (order_trace os vs).get? i = some (d, m) →
      lc "kod" ∉ row_mismatches d m := by
  intro i d m h
  obtain ⟨-, hm⟩ := runMatch_get?_spec order_key (build_invoice_index vs) (os.drop 1) i d m h
  cases m with
  | none =>
    simp only [row_mismatches, List.mem_singleton]
    decide
  | some inv =>
    rw [build_invoice_index, buildIndex_apply] at hm
    have hinv_mem : inv ∈ vs.filter (fun v => decide (invoice_key v = order_key d)) :=
      List.get?_mem hm.symm
    have hkey : invoice_key inv = order_key d :=
      of_decide_eq_true (List.mem_filter.1 hinv_mem).2
    have hstrip : pyStrip (order_key d) = order_key d := by
      rw [← hkey]
      show pyStrip (normalize_text (dict_get inv (lc "kod"))) =
        normalize_text (dict_get inv (lc "kod"))
      cases dict_get inv (lc "kod") with
      | none => rfl
      | some s => exact pyStrip_idem s
    have hcond : normalize_text (some (order_key d)) =
        normalize_text (dict_get inv (lc "kod")) := by
      show pyStrip (order_key d) = invoice_key inv
      rw [hstrip, hkey]
    simp only [row_mismatches]
    rw [if_neg (fun hne => hne hcond)]
    intro hmem
    rw [List.nil_append] at hmem
    rcases List.mem_append.1 hmem with h23 | h4
    · rcases List.mem_append.1 h23 with h2 | h3
      · exact kod_not_mem_numchunk _ _ (by decide) h2
      · exact kod_not_mem_numchunk _ _ (by decide) h3
    · exact kod_not_mem_numchunk _ _ (by decide) h4

/-- C10 witness: a concrete paired row, whose mismatch list omits `"kod"`. -/
theorem c10_kod_mismatch_unreachable_witness :
    lc "kod" ∉ row_mismatches exOrderRow (some exInvoiceRow) :=
  c10_kod_mismatch_unreachable [exHeaderRow, exOrderRow] [exInvoiceRow]
    0 exOrderRow (some exInvoiceRow) (by decide)

/-- C5 counterexample: on an empty order row list `compare_rows` emits
nothing at all — 0 data rows, while `len(order_rows) - 1` is `-1`. -/
theorem c5_counterexample :
    ¬ ((((compare_rows [] [exInvoiceRow] []).1.drop 1).length : Int) =
        (([] : List OrderRow).length : Int) - 1) := by
  decide

/-- C5, amended: for every NONEMPTY order row list, the order-driven pass
emits a header plus exactly `len(order_rows) - 1` data rows; the
invoice-driven pass always emits a header plus exactly `len(invoice_rows)`
data rows. -/
theorem c5_row_counts (os : List OrderRow) (vs : List InvoiceRow) (hdr : List PyStr)
    (hne : os ≠ []) :
    ((compare_rows os vs hdr).1.length = os.length ∧
      ((compare_rows os vs hdr).1.drop 1).length = os.length - 1) ∧
    ((compare_invoice_rows os vs hdr).1.drop 1).length = vs.length := by
  obtain ⟨h, rest, rfl⟩ := List.exists_cons_of_ne_nil hne
  refine ⟨⟨?_, ?_⟩, ?_⟩
  · simp [compare_rows, order_trace, runMatch_length]
  · simp [compare_rows, order_trace, runMatch_length]
  · simp [compare_invoice_rows, invoice_trace, runMatch_length]

/-! ## Lemmas about the decimal model (claim C4) -/

theorem int_scaled_cast (v : ℤ) (e m : ℤ) (he : m ≤ e) :
    ((v * 10 ^ (e - m).toNat : ℤ) : ℚ) * (10 : ℚ) ^ m = (v : ℚ) * (10 : ℚ) ^ e := by
  have h10 : (10 : ℚ) ≠ 0 := by norm_num
  push_cast
  rw [← zpow_natCast (10 : ℚ) (e - m).toNat, Int.toNat_of_nonneg (by omega)]
  rw [mul_assoc, ← zpow_add₀ h10, sub_add_cancel]

/-- `Decimal` equality on finite values is exactly equality of the exact
rational values. -/
theorem decimalEq_finite_iff (s1 : Bool) (c1 : Nat) (e1 : Int)
    (s2 : Bool) (c2 : Nat) (e2 : Int) :
    decimalEq (.finite s1 c1 e1) (.finite s2 c2 e2) = true ↔
      decValue s1 c1 e1 = decValue s2 c2 e2 := by
  have h10 : (10 : ℚ) ≠ 0 := by norm_num
  have hrw : decimalEq (.finite s1 c1 e1) (.finite s2 c2 e2) =
      decide (decSignedCoeff s1 c1 * 10 ^ (e1 - min e1 e2).toNat =
        decSignedCoeff s2 c2 * 10 ^ (e2 - min e1 e2).toNat) := rfl
  rw [hrw, decide_eq_true_eq]
  have h1 := int_scaled_cast (decSignedCoeff s1 c1) e1 (min e1 e2) (min_le_left _ _)
  have h2 := int_scaled_cast (decSignedCoeff s2 c2) e2 (min e1 e2) (min_le_right _ _)
  constructor
  · intro h
    unfold decValue
    rw [← h1, ← h2, h]
  · intro h
    unfold decValue at h
    have hq : ((decSignedCoeff s1 c1 * 10 ^ (e1 - min e1 e2).toNat : ℤ) : ℚ) *
          (10 : ℚ) ^ (min e1 e2) =
        ((decSignedCoeff s2 c2 * 10 ^ (e2 - min e1 e2).toNat : ℤ) : ℚ) *
          (10 : ℚ) ^ (min e1 e2) := by
      rw [h1, h2, h]
    have hq2 := mul_right_cancel₀ (zpow_ne_zero _ h10) hq
    exact_mod_cast hq2

/-- C4: `numbers_equal` treats two unparseable values as equal, one
unparseable value as unequal (with no error raised), and otherwise compares
the two parsed decimals by exact rational value; the trailing conjunct
shows a comparison a binary float would collapse. -/
theorem c4_numbers_equal (v w : Cell) :
    (normalize_numeric v = none → normalize_numeric w = none →
      numbers_equal v w = true) ∧
    (normalize_numeric v = none → normalize_numeric w ≠ none →
      numbers_equal v w = false) ∧
    (normalize_numeric v ≠ none → normalize_numeric w = none →
      numbers_equal v w = false) ∧
    (∀ s1 c1 e1 s2 c2 e2,
        normalize_numeric v = some (.finite s1 c1 e1) →
        normalize_numeric w = some (.finite s2 c2 e2) →
        (numbers_equal v w = true ↔ decValue s1 c1 e1 = decValue s2 c2 e2)) ∧
    ((normalize_numeric v = none ∨ normalize_numeric w = none) →
      numbers_equal_raises v w = false) ∧
    numbers_equal (some (lc "1.00000000000000000000000001")) (some (lc "1")) = false := by
  refine ⟨?_, ?_, ?_, ?_, ?_, by decide⟩
  · intro hv hw
    unfold numbers_equal
    rw [hv, hw]
  · intro hv hw
    cases hw2 : normalize_numeric w with
    | none => exact absurd hw2 hw
    | some b =>
      unfold numbers_equal
      rw [hv, hw2]
  · intro hv hw
    cases hv2 : normalize_numeric v with
    | none => exact absurd hv2 hv
    | some a =>
      unfold numbers_equal
      rw [hv2, hw]
  · intro s1 c1 e1 s2 c2 e2 hv hw
    unfold numbers_equal
    rw [hv, hw]
    exact decimalEq_finite_iff s1 c1 e1 s2 c2 e2
  · intro hor
    unfold numbers_equal_raises
    rcases hor with hv | hw
    · rw [hv]
    · cases hv2 : normalize_numeric v with
      | none => rw [hw]
      | some a => rw [hw]

/-- C4 witness: `None` compared with the empty string — both unparseable,
equal, and no raise. -/
theorem c4_numbers_equal_witness :
    numbers_equal none (some (lc "")) = true ∧
    numbers_equal_raises none (some (lc "")) = false :=
  ⟨(c4_numbers_equal none (some (lc ""))).1 (by decide) (by decide),
   (c4_numbers_equal none (some (lc ""))).2.2.2.2.1 (Or.inl (by decide))⟩

/-- C5 witness: two order rows (header + one) and one invoice row. -/
theorem c5_row_counts_witness :
    ((compare_rows [exHeaderRow, exOrderRow] [exInvoiceRow] []).1.length =
        [exHeaderRow, exOrderRow].length ∧
      ((compare_rows [exHeaderRow, exOrderRow] [exInvoiceRow] []).1.drop 1).length =
        [exHeaderRow, exOrderRow].length - 1) ∧
    ((compare_invoice_rows [exHeaderRow, exOrderRow] [exInvoiceRow] []).1.drop 1).length =
      [exInvoiceRow].length :=
  c5_row_counts [exHeaderRow, exOrderRow] [exInvoiceRow] [] (by decide)

end PdfReader.OrderCompare

namespace PdfReader.Main

/-! ## Lemmas about `main.normalize_numeric` and the row scanner (claim C3) -/

/-- `main.normalize_numeric` is idempotent: its output contains no NBSP, no
space and no comma, so a second pass changes nothing. -/
theorem normalize_numeric_idem (s : PyStr) :
    normalize_numeric (normalize_numeric s) = normalize_numeric s := by
  set u := replaceAll ['\u00A0'] [' '] s with hu
  set t := replaceAll [' '] [] u with ht
  set f := replaceAll [','] ['.'] t with hf
  have hnb_u : '\u00A0' ∉ u := not_mem_replaceAll_single '\u00A0' [' '] s (by decide)
  have hsp_t : ' ' ∉ t := not_mem_replaceAll_single ' ' [] u (by simp)
  have hnb_t : '\u00A0' ∉ t := by
    intro hmem
    rcases mem_replaceAll _ _ _ _ hmem with h1 | h2
    · simp at h1
    · exact hnb_u h2
  have hcm_f : ',' ∉ f := not_mem_replaceAll_single ',' ['.'] t (by decide)
  have hsp_f : ' ' ∉ f := by
    intro hmem
    rcases mem_replaceAll _ _ _ _ hmem with h1 | h2
    · exact absurd h1 (by decide)
    · exact hsp_t h2
  have hnb_f : '\u00A0' ∉ f := by
    intro hmem
    rcases mem_replaceAll _ _ _ _ hmem with h1 | h2
    · exact absurd h1 (by decide)
    · exact hnb_t h2
  show replaceAll [','] ['.'] (replaceAll [' '] [] (replaceAll ['\u00A0'] [' '] f)) = f
  rw [replaceAll_id_of_head_not_mem _ _ _ _ hnb_f,
    replaceAll_id_of_head_not_mem _ _ _ _ hsp_f,
    replaceAll_id_of_head_not_mem _ _ _ _ hcm_f]

/-- `is_numeric` is invariant under the normalisation it performs itself. -/
theorem is_numeric_normalize (s : PyStr) :
    is_numeric (normalize_numeric s) = is_numeric s := by
  unfold is_numeric
  rw [normalize_numeric_idem]

/-- Unfolding of one step of the scan loop. -/
theorem parseLoopF_cons (fuel : Nat) (in_table : Bool) (l : PyStr) (rest : List PyStr) :
    parseLoopF (fuel + 1) in_table (l :: rest) =
      if l = lc "Nettó ár" then parseLoopF fuel true rest
      else
        if nextInTable in_table l ∧ pyIsDigitStr l ∧ 8 ≤ rest.length then
          match rest with
          | termek :: szin :: meret :: m2 :: db :: ossz_m2 :: egyseg_ar :: netto_ar :: rest2 =>
            if rowGuard meret m2 db ossz_m2 egyseg_ar netto_ar then
              { termek := termek, szin := szin, meret := meret,
                m2 := normalize_numeric m2, db := normalize_numeric db,
                ossz_m2 := normalize_numeric ossz_m2,
                egyseg_ar := normalize_numeric egyseg_ar,
                netto_ar := normalize_numeric netto_ar } ::
                parseLoopF fuel (nextInTable in_table l) (skipSquareMeterLine rest2)
            else parseLoopF fuel (nextInTable in_table l) rest
          | _ => parseLoopF fuel (nextInTable in_table l) rest
        else parseLoopF fuel (nextInTable in_table l) rest := by
  rfl

/-- Every record emitted by the scan loop passed the acceptance guard:
its size holds an `x` and its five stored (normalised) numeric fields are
`float`-parseable. -/
theorem parseLoopF_mem (fuel : Nat) (in_table : Bool) (lines : List PyStr)
    (r : InvRecord) (hmem : r ∈ parseLoopF fuel in_table lines) :
    'x' ∈ r.meret ∧ is_numeric r.m2 = true ∧ is_numeric r.db = true ∧
      is_numeric r.ossz_m2 = true ∧ is_numeric r.egyseg_ar = true ∧
      is_numeric r.netto_ar = true := by
  induction fuel generalizing in_table lines with
  | zero => simp [parseLoopF] at hmem
  | succ fuel ih =>
    cases lines with
    | nil => simp [parseLoopF] at hmem
    | cons l rest =>
      rw [parseLoopF_cons] at hmem
      by_cases h1 : l = lc "Nettó ár"
      · rw [if_pos h1] at hmem
        exact ih _ _ hmem
      · rw [if_neg h1] at hmem
        by_cases h2 : (nextInTable in_table l = true) ∧ pyIsDigitStr l = true ∧
            8 ≤ rest.length
        · rw [if_pos h2] at hmem
          rcases rest with - | ⟨a1, - | ⟨a2, - | ⟨a3, - | ⟨a4, - | ⟨a5, - | ⟨a6,
            - | ⟨a7, - | ⟨a8, rest2⟩⟩⟩⟩⟩⟩⟩⟩
          · exact ih _ _ hmem
          · exact ih _ _ hmem
          · exact ih _ _ hmem
          · exact ih _ _ hmem
          · exact ih _ _ hmem
          · exact ih _ _ hmem
          · exact ih _ _ hmem
          · exact ih _ _ hmem
          · have hmem2 : r ∈
                (if rowGuard a3 a4 a5 a6 a7 a8 = true then
                  ({ termek := a1, szin := a2, meret := a3,
                     m2 := normalize_numeric a4, db := normalize_numeric a5,
                     ossz_m2 := normalize_numeric a6, egyseg_ar := normalize_numeric a7,
                     netto_ar := normalize_numeric a8 } : InvRecord) ::
                    parseLoopF fuel (nextInTable in_table l) (skipSquareMeterLine rest2)
                else parseLoopF fuel (nextInTable in_table l)
                  (a1 :: a2 :: a3 :: a4 :: a5 :: a6 :: a7 :: a8 :: rest2)) := hmem
            by_cases hg : rowGuard a3 a4 a5 a6 a7 a8 = true
            · rw [if_pos hg] at hmem2
              rcases List.mem_cons.1 hmem2 with rfl | hrec
              · have hg2 := hg
                unfold rowGuard at hg2
                simp only [Bool.and_eq_true, decide_eq_true_eq] at hg2
                obtain ⟨hx, ⟨⟨⟨hm2, hdb⟩, hossz⟩, hea⟩, hna⟩ := hg2
                clear hmem hmem2 hg ih
                refine ⟨hx, ?_, ?_, ?_, ?_, ?_⟩
                · show is_numeric (normalize_numeric a4) = true
                  rw [is_numeric_normalize]
                  exact hm2
                · show is_numeric (normalize_numeric a5) = true
                  rw [is_numeric_normalize]
                  exact hdb
                · show is_numeric (normalize_numeric a6) = true
                  rw [is_numeric_normalize]
                  exact hossz
                · show is_numeric (normalize_numeric a7) = true
                  rw [is_numeric_normalize]
                  exact hea
                · show is_numeric (normalize_numeric a8) = true
                  rw [is_numeric_normalize]
                  exact hna
              · exact ih _ _ hrec
            · rw [if_neg hg] at hmem2
              exact ih _ _ hmem2
        · rw [if_neg h2] at hmem
          exact ih _ _ hmem

end PdfReader.Main

namespace PdfReader.Main

/-! ## Claim theorems about `main.py` -/

/-- C3: every record produced by `parse_rows` has a size containing the
dimension separator `x`, and all five stored numeric fields parse as
locale-formatted decimals after separator normalisation (`is_numeric`); a
9-line block failing either condition is never emitted. -/
theorem c3_parse_rows_records (text : PyStr) (r : InvRecord)
    (hmem : r ∈ parse_rows text) :
    'x' ∈ r.meret ∧ is_numeric r.m2 = true ∧ is_numeric r.db = true ∧
      is_numeric r.ossz_m2 = true ∧ is_numeric r.egyseg_ar = true ∧
      is_numeric r.netto_ar = true :=
  parseLoopF_mem _ _ _ r hmem

/-- C3 witness: the one record parsed from `exText`. -/
theorem c3_parse_rows_records_witness :
    'x' ∈ (⟨lc "Prod", lc "Color", lc "800x400", lc "1.25", lc "2", lc "2.50",
        lc "1000.00", lc "2500.00"⟩ : InvRecord).meret ∧
      is_numeric (⟨lc "Prod", lc "Color", lc "800x400", lc "1.25", lc "2", lc "2.50",
        lc "1000.00", lc "2500.00"⟩ : InvRecord).m2 = true ∧
      is_numeric (⟨lc "Prod", lc "Color", lc "800x400", lc "1.25", lc "2", lc "2.50",
        lc "1000.00", lc "2500.00"⟩ : InvRecord).db = true ∧
      is_numeric (⟨lc "Prod", lc "Color", lc "800x400", lc "1.25", lc "2", lc "2.50",
        lc "1000.00", lc "2500.00"⟩ : InvRecord).ossz_m2 = true ∧
      is_numeric (⟨lc "Prod", lc "Color", lc "800x400", lc "1.25", lc "2", lc "2.50",
        lc "1000.00", lc "2500.00"⟩ : InvRecord).egyseg_ar = true ∧
      is_numeric (⟨lc "Prod", lc "Color", lc "800x400", lc "1.25", lc "2", lc "2.50",
        lc "1000.00", lc "2500.00"⟩ : InvRecord).netto_ar = true :=
  c3_parse_rows_records exText _ (by decide)

/-- Unfolding of the derived SKU of a translated row. -/
theorem apply_translations_row_kod (table : TransTable) (row : InvRecord) :
    (apply_translations_row table row).kod =
      if replaceAll [' '] [] row.meret = lc "718x250" then
        underscoreJoin [lc "NFAH", model_code table row, color_code table row,
          replaceAll [' '] [] row.meret]
      else if replaceAll [' '] [] row.meret ∈ table.standard_sizes then
        underscoreJoin [product_code table row, color_code table row,
          replaceAll [' '] [] row.meret]
      else
        underscoreJoin [lc "NFAY", model_code table row, color_code table row,
          replaceAll [' '] [] row.meret] := rfl

/-- C2: the derived SKU comes from three mutually exclusive rules evaluated
in order, the first firing exactly when the space-stripped size equals the
literal `718x250`; and the concrete scenario (size `718x250`, product code
ending `_X1`, color code `C2`) derives `NFAH_X1_C2_718x250`. -/
theorem c2_kod_rules :
    (∀ (table : TransTable) (row : InvRecord),
      (replaceAll [' '] [] row.meret = lc "718x250" ∧
        (apply_translations_row table row).kod =
          underscoreJoin [lc "NFAH", model_code table row, color_code table row,
            replaceAll [' '] [] row.meret]) ∨
      (replaceAll [' '] [] row.meret ≠ lc "718x250" ∧
        replaceAll [' '] [] row.meret ∈ table.standard_sizes ∧
        (apply_translations_row table row).kod =
          underscoreJoin [product_code table row, color_code table row,
            replaceAll [' '] [] row.meret]) ∨
      (replaceAll [' '] [] row.meret ≠ lc "718x250" ∧
        replaceAll [' '] [] row.meret ∉ table.standard_sizes ∧
        (apply_translations_row table row).kod =
          underscoreJoin [lc "NFAY", model_code table row, color_code table row,
            replaceAll [' '] [] row.meret])) ∧
    (apply_translations [exRow718] exTable).map OutRecord.kod =
      [lc "NFAH_X1_C2_718x250"] := by
  constructor
  · intro table row
    by_cases h1 : replaceAll [' '] [] row.meret = lc "718x250"
    · exact Or.inl ⟨h1, by rw [apply_translations_row_kod, if_pos h1]⟩
    · by_cases h2 : replaceAll [' '] [] row.meret ∈ table.standard_sizes
      · exact Or.inr (Or.inl ⟨h1, h2,
          by rw [apply_translations_row_kod, if_neg h1, if_pos h2]⟩)
      · exact Or.inr (Or.inr ⟨h1, h2,
          by rw [apply_translations_row_kod, if_neg h1, if_neg h2]⟩)
  · decide

/-- C9 counterexample: a size containing a tab keeps the tab — a whitespace
character — in the output `meret` (and in the derived SKU), because only
space characters are removed. -/
theorem c9_counterexample :
    (apply_translations [exRowTab] exTable).map (fun r => r.meret.any pyIsSpace) =
      [true] := by
  decide

/-- C9, amended: only the SPACE character (U+0020) is removed from the size
before comparison and output: the output `meret` is the input size with
spaces deleted, contains no space, and is the size segment used by all
three SKU rules; other whitespace (tab, NBSP) passes through. -/
theorem c9_space_stripping (table : TransTable) (row : InvRecord) :
    (apply_translations_row table row).meret = replaceAll [' '] [] row.meret ∧
    ' ' ∉ (apply_translations_row table row).meret ∧
    (apply_translations_row table row).kod =
      (if replaceAll [' '] [] row.meret = lc "718x250" then
        underscoreJoin [lc "NFAH", model_code table row, color_code table row,
          replaceAll [' '] [] row.meret]
      else if replaceAll [' '] [] row.meret ∈ table.standard_sizes then
        underscoreJoin [product_code table row, color_code table row,
          replaceAll [' '] [] row.meret]
      else
        underscoreJoin [lc "NFAY", model_code table row, color_code table row,
          replaceAll [' '] [] row.meret]) :=
  ⟨rfl, not_mem_replaceAll_single ' ' [] row.meret (by simp),
    apply_translations_row_kod table row⟩

/-- C8: a missing translation table file makes the run fail with the
file-not-found error: `load_translations` raises, no translated row is
produced, and this holds whatever the PDF text was (fail-fast for the whole
run, not per-row). -/
theorem c8_translations_fail_fast (env : Env) (h : env.translations = none) :
    load_translations env = Except.error MainError.translationNotFound ∧
    mainRows env = Except.error MainError.translationNotFound := by
  have hl : load_translations env = Except.error MainError.translationNotFound := by
    unfold load_translations
    rw [h]
  refine ⟨hl, ?_⟩
  unfold mainRows
  rw [hl]

/-- C8 witness: concrete environment with sample PDF text and no
translation file. -/
theorem c8_translations_fail_fast_witness :
    load_translations { pdf_text := exText, translations := none } =
      Except.error MainError.translationNotFound ∧
    mainRows { pdf_text := exText, translations := none } =
      Except.error MainError.translationNotFound :=
  c8_translations_fail_fast { pdf_text := exText, translations := none } rfl

end PdfReader.Main

namespace PdfReader

/-! ## Split/join lemmas (claim C7) -/

theorem mem_of_head?_eq_some {l : PyStr} {a : Char} (h : l.head? = some a) : a ∈ l :=
  List.mem_of_mem_head? (Option.mem_def.2 h)

theorem mem_of_getLast?_eq_some {l : PyStr} {a : Char} (h : l.getLast? = some a) :
    a ∈ l := by
  rw [← List.head?_reverse] at h
  exact List.mem_reverse.1 (mem_of_head?_eq_some h)

theorem eq_cons_of_head?_eq_some {l : PyStr} {a : Char} (h : l.head? = some a) :
    l = a :: l.tail := by
  cases l with
  | nil => simp at h
  | cons x xs =>
    simp only [List.head?_cons, Option.some.injEq] at h
    rw [h]
    rfl

/-- Tokens produced by the splitter are nonempty and whitespace-free. -/
theorem splitAux_tokens (s : PyStr) : ∀ acc : PyStr,
    (∀ c ∈ acc, pyIsSpace c = false) →
    ∀ w ∈ splitAux acc s, w ≠ [] ∧ ∀ c ∈ w, pyIsSpace c = false := by
  induction s with
  | nil =>
    intro acc hacc w hw
    rw [splitAux] at hw
    by_cases ha : acc = []
    · rw [if_pos ha] at hw
      simp at hw
    · rw [if_neg ha] at hw
      rcases List.mem_singleton.1 hw with rfl
      refine ⟨by simpa using ha, ?_⟩
      intro c hc
      exact hacc c (List.mem_reverse.1 hc)
  | cons d rest ih =>
    intro acc hacc w hw
    rw [splitAux] at hw
    by_cases hd : pyIsSpace d = true
    · rw [if_pos hd] at hw
      by_cases ha : acc = []
      · rw [if_pos ha] at hw
        exact ih [] (by simp) w hw
      · rw [if_neg ha] at hw
        rcases List.mem_cons.1 hw with rfl | hw2
        · refine ⟨by simpa using ha, ?_⟩
          intro c hc
          exact hacc c (List.mem_reverse.1 hc)
        · exact ih [] (by simp) w hw2
    · rw [if_neg hd] at hw
      refine ih (d :: acc) ?_ w hw
      intro c hc
      rcases List.mem_cons.1 hc with rfl | hc2
      · simpa using hd
      · exact hacc c hc2

/-- Characters of tokens come from the split string (or the accumulator). -/
theorem splitAux_subset (s : PyStr) : ∀ acc : PyStr,
    ∀ w ∈ splitAux acc s, ∀ c ∈ w, c ∈ s ∨ c ∈ acc := by
  induction s with
  | nil =>
    intro acc w hw c hc
    rw [splitAux] at hw
    by_cases ha : acc = []
    · rw [if_pos ha] at hw
      simp at hw
    · rw [if_neg ha] at hw
      rcases List.mem_singleton.1 hw with rfl
      exact Or.inr (List.mem_reverse.1 hc)
  | cons d rest ih =>
    intro acc w hw c hc
    rw [splitAux] at hw
    by_cases hd : pyIsSpace d = true
    · rw [if_pos hd] at hw
      by_cases ha : acc = []
      · rw [if_pos ha] at hw
        rcases ih [] w hw c hc with h1 | h2
        · exact Or.inl (List.mem_cons_of_mem d h1)
        · simp at h2
      · rw [if_neg ha] at hw
        rcases List.mem_cons.1 hw with rfl | hw2
        · exact Or.inr (List.mem_reverse.1 hc)
        · rcases ih [] w hw2 c hc with h1 | h2
          · exact Or.inl (List.mem_cons_of_mem d h1)
          · simp at h2
    · rw [if_neg hd] at hw
      rcases ih (d :: acc) w hw c hc with h1 | h2
      · exact Or.inl (List.mem_cons_of_mem d h1)
      · rcases List.mem_cons.1 h2 with rfl | h3
        · exact Or.inl (List.mem_cons_self c rest)
        · exact Or.inr h3

/-- Scanning a whitespace-free chunk just accumulates it (reversed). -/
theorem splitAux_append_token (t : PyStr) (ht : ∀ c ∈ t, pyIsSpace c = false) :
    ∀ (r acc : PyStr), splitAux acc (t ++ r) = splitAux (t.reverse ++ acc) r := by
  induction t with
  | nil => intro r acc; rfl
  | cons c t2 ih =>
    intro r acc
    have hc : pyIsSpace c = false := ht c (List.mem_cons_self c t2)
    show splitAux acc (c :: (t2 ++ r)) = splitAux ((c :: t2).reverse ++ acc) r
    rw [splitAux, if_neg (by rw [hc]; simp)]
    rw [ih (fun d hd => ht d (List.mem_cons_of_mem c hd)) r (c :: acc)]
    congr 1
    simp

/-- Splitting the single-space join of good tokens recovers the tokens. -/
theorem pySplit_spaceJoin (ts : List PyStr)
    (h : ∀ t ∈ ts, t ≠ [] ∧ ∀ c ∈ t, pyIsSpace c = false) :
    pySplit (spaceJoin ts) = ts := by
  induction ts with
  | nil => rfl
  | cons t ts2 ih =>
    obtain ⟨htne, htc⟩ := h t (List.mem_cons_self t ts2)
    cases ts2 with
    | nil =>
      show splitAux [] (spaceJoin [t]) = [t]
      have : spaceJoin [t] = t ++ [] := by simp [spaceJoin]
      rw [this, splitAux_append_token t htc [] []]
      rw [splitAux, if_neg (by simpa using htne)]
      simp
    | cons t2 ts3 =>
      show splitAux [] (spaceJoin (t :: t2 :: ts3)) = t :: t2 :: ts3
      have hjoin : spaceJoin (t :: t2 :: ts3) = t ++ (' ' :: spaceJoin (t2 :: ts3)) := rfl
      rw [hjoin, splitAux_append_token t htc _ []]
      rw [splitAux, if_pos (by decide)]
      rw [if_neg (by simpa using htne)]
      have ihx := ih (fun u hu => h u (List.mem_cons_of_mem t hu))
      show (t.reverse ++ []).reverse :: splitAux [] (spaceJoin (t2 :: ts3)) = t :: t2 :: ts3
      rw [show splitAux [] (spaceJoin (t2 :: ts3)) = t2 :: ts3 from ihx]
      simp

theorem mem_spaceJoin {c : Char} (ts : List PyStr) (h : c ∈ spaceJoin ts) :
    c = ' ' ∨ ∃ t ∈ ts, c ∈ t := by
  induction ts with
  | nil => simp [spaceJoin] at h
  | cons t ts2 ih =>
    cases ts2 with
    | nil =>
      exact Or.inr ⟨t, List.mem_cons_self t [], h⟩
    | cons t2 ts3 =>
      rw [show spaceJoin (t :: t2 :: ts3) = t ++ (' ' :: spaceJoin (t2 :: ts3)) from rfl]
        at h
      rcases List.mem_append.1 h with h1 | h2
      · exact Or.inr ⟨t, List.mem_cons_self t _, h1⟩
      · rcases List.mem_cons.1 h2 with rfl | h3
        · exact Or.inl rfl
        · rcases ih h3 with h4 | ⟨u, hu, hcu⟩
          · exact Or.inl h4
          · exact Or.inr ⟨u, List.mem_cons_of_mem t hu, hcu⟩

theorem spaceJoin_ne_nil (ts : List PyStr) (hne : ts ≠ [])
    (h : ∀ t ∈ ts, t ≠ []) : spaceJoin ts ≠ [] := by
  cases ts with
  | nil => exact absurd rfl hne
  | cons t ts2 =>
    cases ts2 with
    | nil => exact h t (List.mem_cons_self t [])
    | cons t2 ts3 =>
      rw [show spaceJoin (t :: t2 :: ts3) = t ++ (' ' :: spaceJoin (t2 :: ts3)) from rfl]
      simp

theorem head?_spaceJoin (ts : List PyStr)
    (h : ∀ t ∈ ts, t ≠ [] ∧ ∀ c ∈ t, pyIsSpace c = false) :
    ∀ c, (spaceJoin ts).head? = some c → pyIsSpace c = false := by
  cases ts with
  | nil => intro c hc; simp [spaceJoin] at hc
  | cons t ts2 =>
    obtain ⟨htne, htc⟩ := h t (List.mem_cons_self t ts2)
    intro c hc
    have hth : t.head? = some c := by
      cases ts2 with
      | nil => exact hc
      | cons t2 ts3 =>
        rw [show spaceJoin (t :: t2 :: ts3) = t ++ (' ' :: spaceJoin (t2 :: ts3)) from rfl,
          List.head?_append] at hc
        cases hth2 : t.head? with
        | none => exact absurd (by simpa using hth2) htne
        | some d =>
          rw [hth2] at hc
          rw [show (some d).or (' ' :: spaceJoin (t2 :: ts3)).head? = some d from rfl] at hc
          exact hc
    exact htc c (mem_of_head?_eq_some hth)

theorem getLast?_spaceJoin (ts : List PyStr)
    (h : ∀ t ∈ ts, t ≠ [] ∧ ∀ c ∈ t, pyIsSpace c = false) :
    ∀ c, (spaceJoin ts).getLast? = some c → pyIsSpace c = false := by
  induction ts with
  | nil => intro c hc; simp [spaceJoin] at hc
  | cons t ts2 ih =>
    obtain ⟨htne, htc⟩ := h t (List.mem_cons_self t ts2)
    intro c hc
    cases ts2 with
    | nil => exact htc c (mem_of_getLast?_eq_some hc)
    | cons t2 ts3 =>
      have hJne : spaceJoin (t2 :: ts3) ≠ [] :=
        spaceJoin_ne_nil _ (by simp) (fun u hu => (h u (List.mem_cons_of_mem t hu)).1)
      rw [show spaceJoin (t :: t2 :: ts3) = t ++ (' ' :: spaceJoin (t2 :: ts3)) from rfl,
        List.getLast?_append] at hc
      cases hJ : spaceJoin (t2 :: ts3) with
      | nil => exact absurd hJ hJne
      | cons y ys =>
        rw [hJ, List.getLast?_cons_cons] at hc
        cases hyl : (y :: ys).getLast? with
        | none => exact absurd hyl (by simp [List.getLast?_eq_none_iff])
        | some d =>
          rw [hyl] at hc
          rw [show (some d).or t.getLast? = some d from rfl] at hc
          have hdc : d = c := by simpa using hc
          subst hdc
          apply ih (fun u hu => h u (List.mem_cons_of_mem t hu)) d
          rw [hJ, hyl]

theorem noDoubleSpace_tail (c : Char) (cs : PyStr)
    (h : noDoubleSpace (c :: cs) = true) : noDoubleSpace cs = true := by
  cases cs with
  | nil => rfl
  | cons d ds =>
    rw [noDoubleSpace, Bool.and_eq_true] at h
    exact h.2

theorem noDoubleSpace_of_no_space (s : PyStr) (h : ∀ c ∈ s, c ≠ ' ') :
    noDoubleSpace s = true := by
  induction s with
  | nil => rfl
  | cons c cs ih =>
    cases cs with
    | nil => rfl
    | cons d ds =>
      rw [noDoubleSpace, Bool.and_eq_true]
      refine ⟨?_, ih (fun x hx => h x (List.mem_cons_of_mem c hx))⟩
      have := h c (List.mem_cons_self c _)
      simp [this]

theorem noDoubleSpace_append (t r : PyStr) (ht : ∀ c ∈ t, c ≠ ' ')
    (hr : noDoubleSpace r = true) : noDoubleSpace (t ++ r) = true := by
  induction t with
  | nil => simpa using hr
  | cons c t2 ih =>
    have hc : c ≠ ' ' := ht c (List.mem_cons_self c t2)
    have ih2 := ih (fun x hx => ht x (List.mem_cons_of_mem c hx))
    show noDoubleSpace (c :: (t2 ++ r)) = true
    cases he : t2 ++ r with
    | nil => rfl
    | cons d ds =>
      rw [noDoubleSpace, Bool.and_eq_true]
      refine ⟨by simp [hc], ?_⟩
      rw [← he]
      exact ih2

theorem noDoubleSpace_spaceJoin (ts : List PyStr)
    (h : ∀ t ∈ ts, t ≠ [] ∧ ∀ c ∈ t, pyIsSpace c = false) :
    noDoubleSpace (spaceJoin ts) = true := by
  have hns : ∀ t ∈ ts, ∀ c ∈ t, c ≠ ' ' := by
    intro t hairt c hc heq
    have := (h t hairt).2 c hc
    rw [heq] at this
    simp [pyIsSpace] at this
  induction ts with
  | nil => rfl
  | cons t ts2 ih =>
    cases ts2 with
    | nil => exact noDoubleSpace_of_no_space t (hns t (List.mem_cons_self t []))
    | cons t2 ts3 =>
      rw [show spaceJoin (t :: t2 :: ts3) = t ++ (' ' :: spaceJoin (t2 :: ts3)) from rfl]
      apply noDoubleSpace_append t _ (hns t (List.mem_cons_self t _))
      have hJne : spaceJoin (t2 :: ts3) ≠ [] :=
        spaceJoin_ne_nil _ (by simp) (fun u hu => (h u (List.mem_cons_of_mem t hu)).1)
      cases hJ : spaceJoin (t2 :: ts3) with
      | nil => exact absurd hJ hJne
      | cons y ys =>
        rw [noDoubleSpace, Bool.and_eq_true]
        constructor
        · have hy : pyIsSpace y = false := by
            apply head?_spaceJoin (t2 :: ts3) (fun u hu => h u (List.mem_cons_of_mem t hu))
            rw [hJ]
            rfl
          have : y ≠ ' ' := by
            intro heq
            rw [heq] at hy
            simp [pyIsSpace] at hy
          simp [this]
        · rw [← hJ]
          apply ih (fun u hu => h u (List.mem_cons_of_mem t hu))
          intro u hu
          exact hns u (List.mem_cons_of_mem t hu)

/-- Replacing double spaces does nothing on a string with no two adjacent
spaces. -/
theorem replaceAllF_double_space_id (repl : PyStr) (fuel : Nat) (s : PyStr)
    (h : noDoubleSpace s = true) : replaceAllF [' ', ' '] repl fuel s = s := by
  induction fuel generalizing s with
  | zero => cases s <;> rfl
  | succ fuel ih =>
    cases s with
    | nil => rfl
    | cons c cs =>
      rw [replaceAllF, if_neg]
      · rw [ih cs (noDoubleSpace_tail c cs h)]
      · rintro ⟨-, hpre⟩
        cases cs with
        | nil => simp [List.isPrefixOf] at hpre
        | cons d ds =>
          rw [isPrefixOf_cons_eq] at hpre
          simp only [Bool.and_eq_true, beq_iff_eq] at hpre
          obtain ⟨rfl, hpre2⟩ := hpre
          rw [isPrefixOf_cons_eq] at hpre2
          simp only [Bool.and_eq_true, beq_iff_eq] at hpre2
          obtain ⟨rfl, -⟩ := hpre2
          rw [noDoubleSpace] at h
          simp at h

theorem replaceAll_double_space_id (repl : PyStr) (s : PyStr)
    (h : noDoubleSpace s = true) : replaceAll [' ', ' '] repl s = s :=
  replaceAllF_double_space_id repl s.length s h

/-- A fold of replacements whose patterns all start with a character absent
from the string leaves it unchanged. -/
theorem foldl_replaceAll_id (l : List (PyStr × PyStr)) (s : PyStr)
    (h : ∀ pr ∈ l, ∃ a p, pr.1 = a :: p ∧ a ∉ s) :
    l.foldl (fun acc pr => replaceAll pr.1 pr.2 acc) s = s := by
  induction l with
  | nil => rfl
  | cons pr rest ih =>
    rw [List.foldl_cons]
    obtain ⟨a, p, hpr, ha⟩ := h pr (List.mem_cons_self _ _)
    rw [hpr, replaceAll_id_of_head_not_mem a p _ s ha]
    exact ih (fun q hq => h q (List.mem_cons_of_mem _ hq))

end PdfReader

namespace PdfReader.Main

/-! ## Idempotence of `main.normalize_text` (claim C7) -/

/-- All mojibake patterns start with one of the box-drawing lead
characters. -/
theorem mojibake_heads :
    ∀ pr ∈ MOJIBAKE_FIXES, pr.1.head? = some '├' ∨ pr.1.head? = some '┼' := by
  decide

/-- On strings free of the two mojibake lead characters, `fix_mojibake` is
the identity. -/
theorem fix_mojibake_id (s : PyStr) (h1 : '├' ∉ s) (h2 : '┼' ∉ s) :
    fix_mojibake s = s := by
  unfold fix_mojibake
  apply foldl_replaceAll_id
  intro pr hpr
  rcases mojibake_heads pr hpr with hh | hh
  · exact ⟨'├', pr.1.tail, eq_cons_of_head?_eq_some hh, h1⟩
  · exact ⟨'┼', pr.1.tail, eq_cons_of_head?_eq_some hh, h2⟩

/-- Unfolding of `normalize_text` as a pipeline. -/
theorem normalize_text_eq (s : PyStr) : normalize_text s =
    textFixLookup (spaceJoin (pySplit (replaceAll ['Â'] []
      (replaceAll ['û'] ['ű'] (pyStrip (replaceAll [' ', ' '] [' ']
        (replaceAll ['\u00A0'] [' '] (fix_mojibake s)))))))) := rfl

/-- A single-space join of nonempty whitespace-free tokens that avoids the
special characters and is not a `TEXT_FIXES` key is a fixed point of
`normalize_text`. -/
theorem normalize_text_fixpoint (ts : List PyStr)
    (htok : ∀ t ∈ ts, t ≠ [] ∧ ∀ c ∈ t, pyIsSpace c = false)
    (hb1 : '├' ∉ spaceJoin ts) (hb2 : '┼' ∉ spaceJoin ts)
    (hu : 'û' ∉ spaceJoin ts) (ha : 'Â' ∉ spaceJoin ts)
    (hfind : TEXT_FIXES.find? (fun pr => pr.1 = spaceJoin ts) = none) :
    normalize_text (spaceJoin ts) = spaceJoin ts := by
  have hnb : '\u00A0' ∉ spaceJoin ts := by
    intro hmem
    rcases mem_spaceJoin ts hmem with h | ⟨t, ht, hct⟩
    · exact absurd h (by decide)
    · exact absurd ((htok t ht).2 _ hct) (by decide)
  rw [normalize_text_eq (spaceJoin ts)]
  rw [fix_mojibake_id (spaceJoin ts) hb1 hb2]
  rw [replaceAll_id_of_head_not_mem '\u00A0' [] [' '] (spaceJoin ts) hnb]
  rw [replaceAll_double_space_id [' '] (spaceJoin ts) (noDoubleSpace_spaceJoin ts htok)]
  rw [pyStrip_eq_self (spaceJoin ts) (head?_spaceJoin ts htok) (getLast?_spaceJoin ts htok)]
  rw [replaceAll_id_of_head_not_mem 'û' [] ['ű'] (spaceJoin ts) hu]
  rw [replaceAll_id_of_head_not_mem 'Â' [] [] (spaceJoin ts) ha]
  rw [show pySplit (spaceJoin ts) = ts from pySplit_spaceJoin ts htok]
  unfold textFixLookup
  rw [hfind]

/-- C7 counterexample: `normalize_text` is not idempotent on every string.
On `"├├ş"` the first pass turns the trailing `"├ş"` into `"í"`, creating a
fresh mojibake pair `"├í"` that only the second pass rewrites to `"á"`. -/
theorem c7_counterexample :
    normalize_text (normalize_text (lc "├├ş")) ≠ normalize_text (lc "├├ş") := by
  decide

/-- C7, amended: `normalize_text` is idempotent on every string containing
neither mojibake lead character `├` nor `┼` (a stray lead character can
combine with the output of another substitution and form a new mojibake
pair after the first pass). -/
theorem c7_normalize_text_idempotent (s : PyStr) (h1 : '├' ∉ s) (h2 : '┼' ∉ s) :
    normalize_text (normalize_text s) = normalize_text s := by
  rw [normalize_text_eq s]
  rw [fix_mojibake_id s h1 h2]
  set f2 := replaceAll ['\u00A0'] [' '] s with hf2
  set f3 := replaceAll [' ', ' '] [' '] f2 with hf3
  set f4 := pyStrip f3 with hf4
  set f5 := replaceAll ['û'] ['ű'] f4 with hf5
  set f6 := replaceAll ['Â'] [] f5 with hf6
  set ts := pySplit f6 with hts
  have htok : ∀ t ∈ ts, t ≠ [] ∧ ∀ c ∈ t, pyIsSpace c = false :=
    splitAux_tokens f6 [] (by simp)
  have hb1_2 : '├' ∉ f2 := by
    intro hm
    rcases mem_replaceAll _ _ _ _ hm with h | h
    · exact absurd h (by decide)
    · exact h1 h
  have hb1_3 : '├' ∉ f3 := by
    intro hm
    rcases mem_replaceAll _ _ _ _ hm with h | h
    · exact absurd h (by decide)
    · exact hb1_2 h
  have hb1_4 : '├' ∉ f4 := fun hm => hb1_3 (mem_pyStrip hm)
  have hb1_5 : '├' ∉ f5 := by
    intro hm
    rcases mem_replaceAll _ _ _ _ hm with h | h
    · exact absurd h (by decide)
    · exact hb1_4 h
  have hb1_6 : '├' ∉ f6 := by
    intro hm
    rcases mem_replaceAll _ _ _ _ hm with h | h
    · simp at h
    · exact hb1_5 h
  have hb2_2 : '┼' ∉ f2 := by
    intro hm
    rcases mem_replaceAll _ _ _ _ hm with h | h
    · exact absurd h (by decide)
    · exact h2 h
  have hb2_3 : '┼' ∉ f3 := by
    intro hm
    rcases mem_replaceAll _ _ _ _ hm with h | h
    · exact absurd h (by decide)
    · exact hb2_2 h
  have hb2_4 : '┼' ∉ f4 := fun hm => hb2_3 (mem_pyStrip hm)
  have hb2_5 : '┼' ∉ f5 := by
    intro hm
    rcases mem_replaceAll _ _ _ _ hm with h | h
    · exact absurd h (by decide)
    · exact hb2_4 h
  have hb2_6 : '┼' ∉ f6 := by
    intro hm
    rcases mem_replaceAll _ _ _ _ hm with h | h
    · simp at h
    · exact hb2_5 h
  have hu_5 : 'û' ∉ f5 := not_mem_replaceAll_single 'û' ['ű'] f4 (by decide)
  have hu_6 : 'û' ∉ f6 := by
    intro hm
    rcases mem_replaceAll _ _ _ _ hm with h | h
    · simp at h
    · exact hu_5 h
  have ha_6 : 'Â' ∉ f6 := not_mem_replaceAll_single 'Â' [] f5 (by simp)
  have hmem_y : ∀ c, c ∈ spaceJoin ts → c = ' ' ∨ c ∈ f6 := by
    intro c hc
    rcases mem_spaceJoin ts hc with h | ⟨t, ht, hct⟩
    · exact Or.inl h
    · rcases splitAux_subset f6 [] t ht c hct with h' | h'
      · exact Or.inr h'
      · simp at h'
  have hb1y : '├' ∉ spaceJoin ts := by
    intro hm
    rcases hmem_y _ hm with h | h
    · exact absurd h (by decide)
    · exact hb1_6 h
  have hb2y : '┼' ∉ spaceJoin ts := by
    intro hm
    rcases hmem_y _ hm with h | h
    · exact absurd h (by decide)
    · exact hb2_6 h
  have huy : 'û' ∉ spaceJoin ts := by
    intro hm
    rcases hmem_y _ hm with h | h
    · exact absurd h (by decide)
    · exact hu_6 h
  have hay : 'Â' ∉ spaceJoin ts := by
    intro hm
    rcases hmem_y _ hm with h | h
    · exact absurd h (by decide)
    · exact ha_6 h
  cases hfind : TEXT_FIXES.find? (fun pr => pr.1 = spaceJoin ts) with
  | some pr =>
    have hpr := List.mem_of_find?_eq_some hfind
    have heq : textFixLookup (spaceJoin ts) = pr.2 := by
      unfold textFixLookup
      rw [hfind]
    rw [heq]
    fin_cases hpr <;> decide
  | none =>
    have heq : textFixLookup (spaceJoin ts) = spaceJoin ts := by
      unfold textFixLookup
      rw [hfind]
    rw [heq]
    exact normalize_text_fixpoint ts htok hb1y hb2y huy hay hfind

/-- C7 witness: a mojibake-lead-free string with stray spaces, `û` and a
near-`TEXT_FIXES` name. -/
theorem c7_normalize_text_idempotent_witness :
    normalize_text (normalize_text (lc " Magasfényû  krém ")) =
      normalize_text (lc " Magasfényû  krém ") :=
  c7_normalize_text_idempotent (lc " Magasfényû  krém ") (by decide) (by decide)

end PdfReader.Main
